import Mathlib

/-!
Verification of the flow engine of the biological-pathway analysis
repository (file `Data/rouhg.py`): graph construction, BFS augmenting-path
search, Ford–Fulkerson / Edmonds–Karp max-flow (without reverse residual
edges, as in the source), and min-cut extraction.

The embedding mirrors the Python source: a `networkx.DiGraph` is an
insertion-ordered adjacency mapping (here an association list of
association lists), edge attributes `capacity`, `flow`, `enzyme` become a
record with rational numbers standing for Python floats, `KeyError` from a
node lookup becomes an `Except` error, and the unbounded `while` loops are
run on explicitly sufficient fuel (sufficiency is proved below).
-/

namespace PathwayFlow

/-- Nodes are opaque hashable identifiers in the source (metabolite
names); we model them as natural numbers. -/
abbrev Node := Nat

/-- Attributes stored on an edge by `network_graph`:
`enzyme=...`, `capacity=float(...)`, `flow=0.0`. -/
structure EdgeData where
  enzyme : String
  capacity : ℚ
  flow : ℚ
  deriving DecidableEq, Repr

/-- The out-adjacency of one node, in insertion order (a Python dict). -/
abbrev Adj := List (Node × EdgeData)

/-- The graph: nodes in insertion order, each with its out-adjacency
(`networkx` dict-of-dicts). -/
abbrev Graph := List (Node × Adj)

/-- `G[u]` — adjacency lookup; `none` models a Python `KeyError`. -/
def getAdj : Graph → Node → Option Adj
  | [], _ => none
  | (x, adj) :: rest, u => if x = u then some adj else getAdj rest u

/-- Lookup of one edge record inside an adjacency dict. -/
def lookupEdge : Adj → Node → Option EdgeData
  | [], _ => none
  | (y, d) :: rest, v => if y = v then some d else lookupEdge rest v

/-- `G[u][v]` — edge attribute lookup. -/
def getEdge (G : Graph) (u v : Node) : Option EdgeData :=
  match getAdj G u with
  | none => none
  | some adj => lookupEdge adj v

/-- `G.nodes()` — every node registered in the graph, in insertion order. -/
def nodeKeys (G : Graph) : List Node := G.map Prod.fst

/-- All edges with their endpoints and attributes. -/
def edgeList (G : Graph) : List (Node × Node × EdgeData) :=
  G.flatMap (fun p => p.2.map (fun q => (p.1, q.1, q.2)))

/-- Every node occurring as the target of some edge. -/
def allTargets (G : Graph) : List Node :=
  (edgeList G).map (fun e => e.2.1)

/-- Residual capacity `capacity - flow` of an edge record; derived, never
stored (spec §3). -/
def residual (d : EdgeData) : ℚ := d.capacity - d.flow

/-- Residual capacity read through `G[u][v]`; the `0` branch models a
lookup that cannot happen on the paths where this is used. -/
def residAt (G : Graph) (u v : Node) : ℚ :=
  match getEdge G u v with
  | some d => residual d
  | none => 0

/-- Well-formedness that `networkx` guarantees by construction: node keys
are distinct (a dict), each adjacency has distinct keys (a dict), and
every edge target is itself a registered node (`add_edge` registers both
endpoints). -/
def WF (G : Graph) : Prop :=
  (nodeKeys G).Nodup ∧
    (∀ p ∈ G, (p.2.map Prod.fst).Nodup) ∧
    (∀ p ∈ G, ∀ q ∈ p.2, q.1 ∈ nodeKeys G)

instance (G : Graph) : Decidable (WF G) := by
  unfold WF; infer_instance

/-! ### Graph construction (`network_graph`) -/

/-- One row of the loaded CSV (loading itself is the external network
loader, out of scope per spec §1): source, target, enzyme, capacity. -/
structure Row where
  source : Node
  target : Node
  enzyme : String
  capacity : ℚ

/-- Set (insert or overwrite, keeping position) one key of an adjacency
dict — Python dict assignment. -/
def setEdgeData : Adj → Node → EdgeData → Adj
  | [], v, d => [(v, d)]
  | (y, e) :: rest, v, d =>
    if y = v then (y, d) :: rest else (y, e) :: setEdgeData rest v d

/-- Register a node if absent (`networkx.add_edge` registers both
endpoints, appending new nodes in insertion order). -/
def ensureNode (G : Graph) (u : Node) : Graph :=
  if u ∈ nodeKeys G then G else G ++ [(u, [])]

/-- `G.add_edge(u, v, **attrs)`: register `u`, set `G[u][v] = attrs`,
register `v`. -/
def add_edge (G : Graph) (u v : Node) (d : EdgeData) : Graph :=
  let G1 := ensureNode G u
  let G2 := G1.map (fun p => if p.1 = u then (p.1, setEdgeData p.2 v d) else p)
  ensureNode G2 v

/-- `network_graph`: build the directed graph from the loaded rows, with
`capacity` taken from the row, `flow` initialized to `0.0`, and the
enzyme label carried along.  The source performs no validation of the
capacity value whatsoever.  (The CSV read and the optional PNG rendering
are the external loader/renderer, out of scope per spec §1.) -/
def network_graph (rows : List Row) : Graph :=
  rows.foldl
    (fun G r => add_edge G r.source r.target ⟨r.enzyme, r.capacity, 0⟩) []

/-! ### BFS augmenting-path search (`bfs_augmenting_path`) -/

/-- The only failure of the flow engine: a `KeyError` on `G[node]`, which
the spec abstracts as `UnknownNode`. -/
inductive Err where
  | UnknownNode
  deriving DecidableEq, Repr

/-- The `traversal` predecessor dict: insertion-ordered keys, `none` marks
the search source. -/
abbrev Trav := List (Node × Option Node)

/-- The inner `for next_node in G[current_node]` loop of
`bfs_augmenting_path`: scan `cur`'s adjacency in order; visit a node when
its edge has positive residual capacity and it is unvisited; return the
traversal the moment the newly visited node is the sink (early exit),
otherwise the updated `(visited, queue, traversal)` state. -/
def bfsScan (sink cur : Node) :
    Adj → List Node → List Node → Trav →
      (List Node × List Node × Trav) ⊕ Trav
  | [], visited, queue, trav => Sum.inl (visited, queue, trav)
  | (v, d) :: rest, visited, queue, trav =>
    if 0 < residual d ∧ v ∉ visited then
      if v = sink then Sum.inr (trav ++ [(v, some cur)])
      else bfsScan sink cur rest (visited ++ [v]) (queue ++ [v])
        (trav ++ [(v, some cur)])
    else bfsScan sink cur rest visited queue trav

/-- The `while queue:` loop of `bfs_augmenting_path`, on fuel.  `none`
means the fuel ran out (proved impossible for the fuel used below);
otherwise the result is either a `KeyError` (`G[current_node]` missing),
the found traversal, or `none`-traversal when the queue is exhausted. -/
def bfsLoop (G : Graph) (sink : Node) :
    Nat → List Node → List Node → Trav → Option (Except Err (Option Trav))
  | 0, _, _, _ => none
  | fuel + 1, visited, queue, trav =>
    match queue with
    | [] => some (Except.ok none)
    | cur :: rest =>
      match getAdj G cur with
      | none => some (Except.error Err.UnknownNode)
      | some adj =>
        match bfsScan sink cur adj visited rest trav with
        | Sum.inr travFound => some (Except.ok (some travFound))
        | Sum.inl (v', q', t') => bfsLoop G sink fuel v' q' t'

/-- Fuel sufficient for the BFS while-loop: each iteration pops one node,
and every node ever enqueued is the source or an edge target, enqueued at
most once. -/
def bfsFuel (G : Graph) : Nat := (nodeKeys G ++ allTargets G).length + 1

/-- `bfs_augmenting_path(G, source, sink)`: BFS over the residual graph
from `source`, visiting in FIFO order only edges with positive residual
capacity, recording first-visiting predecessors; returns the traversal as
soon as the sink is visited, `none` when no augmenting path exists, and
`UnknownNode` when a popped node is not in the graph.  The fuel-out
branch returns the junk value `.ok none`; `bfsLoop_fuel_sufficient`
below shows it is never taken. -/
def bfs_augmenting_path (G : Graph) (source sink : Node) :
    Except Err (Option Trav) :=
  match bfsLoop G sink (bfsFuel G) [source] [source] [(source, none)] with
  | some r => r
  | none => Except.ok none

/-! ### Path reconstruction and augmentation (`edmonds_karp_maxflow`) -/

/-- `traversal[next_node]` — dict lookup in the predecessor map. -/
def lookupTrav : Trav → Node → Option (Option Node)
  | [], _ => none
  | (n, p) :: rest, x => if n = x then some p else lookupTrav rest x

/-- The `while traversal[next_node] is not None` reconstruction loop:
walk predecessors from the sink, accumulating `(predecessor, node)` edge
pairs in discovery (sink-to-source) order.  `none` covers fuel-out and a
missing key, both impossible under the BFS invariants proved below. -/
def walkBack (trav : Trav) :
    Nat → Node → List (Node × Node) → Option (List (Node × Node))
  | 0, _, _ => none
  | fuel + 1, nxt, acc =>
    match lookupTrav trav nxt with
    | none => none
    | some none => some acc
    | some (some cur) => walkBack trav fuel cur (acc ++ [(cur, nxt)])

/-- Reconstruct the augmenting path source→sink: walk back from the sink,
then `path.reverse()`. -/
def reconstructPath (trav : Trav) (sink : Node) :
    Option (List (Node × Node)) :=
  match walkBack trav trav.length sink [] with
  | some acc => some acc.reverse
  | none => none

/-- Bottleneck capacity of the path: minimum residual capacity over its
edges.  The source starts the running minimum at `float("inf")`, the
identity of `min`, so folding from the first edge's residual is the same
computation; the `[]` case never arises (reconstructed paths are
nonempty, proved below). -/
def pathBottleneck (G : Graph) : List (Node × Node) → ℚ
  | [] => 0
  | e :: es =>
    es.foldl (fun b e2 => min b (residAt G e2.1 e2.2)) (residAt G e.1 e.2)

/-- Add `b` to the `flow` attribute of an edge record. -/
def bumpEdge (b : ℚ) (d : EdgeData) : EdgeData := { d with flow := d.flow + b }

/-- Apply the flow update to the key `v` of an adjacency dict. -/
def bumpAdj (b : ℚ) (v : Node) (adj : Adj) : Adj :=
  adj.map (fun q => if q.1 = v then (q.1, bumpEdge b q.2) else q)

/-- `G_modified[u][v]["flow"] += b` — one in-place flow update. -/
def bumpFlow (G : Graph) (u v : Node) (b : ℚ) : Graph :=
  G.map (fun p => if p.1 = u then (p.1, bumpAdj b v p.2) else p)

/-- The `for current_node, next_node in path` augmentation loop: add the
bottleneck to the flow of every edge on the path. -/
def augmentPath (G : Graph) (b : ℚ) (path : List (Node × Node)) : Graph :=
  path.foldl (fun g e => bumpFlow g e.1 e.2 b) G

/-- The `while True` loop of `edmonds_karp_maxflow`, on fuel: find an
augmenting path, reconstruct it, augment by the bottleneck, accumulate.
`.ok none` marks fuel-out (and the impossible reconstruction failure);
`edmondsLoop_fuel_sufficient` below shows the fuel used never runs out. -/
def edmondsLoop (source sink : Node) :
    Nat → Graph → ℚ → Except Err (Option (ℚ × Graph))
  | 0, _, _ => Except.ok none
  | fuel + 1, G, acc =>
    match bfs_augmenting_path G source sink with
    | Except.error e => Except.error e
    | Except.ok none => Except.ok (some (acc, G))
    | Except.ok (some trav) =>
      match reconstructPath trav sink with
      | none => Except.ok none
      | some path =>
        edmondsLoop source sink fuel
          (augmentPath G (pathBottleneck G path) path)
          (acc + pathBottleneck G path)

/-- Fuel sufficient for the max-flow loop: every augmentation saturates
its bottleneck edge, flows never decrease (no reverse residual edges in
this source), so each iteration permanently saturates at least one more
edge. -/
def edmondsFuel (G : Graph) : Nat := (edgeList G).length + 1

/-- `edmonds_karp_maxflow(G, source, sink)`: Ford–Fulkerson with BFS path
selection.  Works on `G_modified = copy.deepcopy(G)` — under the pure
embedding the value passed in is the private copy and the caller's value
is untouched — and returns the accumulated flow with the updated copy.
The junk branch for fuel-out returns `(0, G)`; it is provably never
taken on well-formed graphs. -/
def edmonds_karp_maxflow (G : Graph) (source sink : Node) :
    Except Err (ℚ × Graph) :=
  match edmondsLoop source sink (edmondsFuel G) G 0 with
  | Except.error e => Except.error e
  | Except.ok (some r) => Except.ok r
  | Except.ok none => Except.ok (0, G)

/-- What a caller observes from `maxflow, G2 = edmonds_karp_maxflow(G, s, t)`:
the returned value together with the graph object the caller still holds
afterwards.  The engine deep-copies its argument and mutates only the
copy, so the caller's graph is the unchanged `G`. -/
def compute_max_flow_call (G : Graph) (source sink : Node) :
    Except Err (ℚ × Graph) × Graph :=
  (edmonds_karp_maxflow G source sink, G)

/-! ### Min-cut extraction (`min_cut`) -/

/-- The inner neighbor scan of `min_cut`'s BFS: visit every unvisited
neighbor reachable through positive residual capacity (no early exit —
there is no sink here). -/
def mcScan : Adj → List Node → List Node → List Node × List Node
  | [], visited, queue => (visited, queue)
  | (v, d) :: rest, visited, queue =>
    if 0 < residual d ∧ v ∉ visited then
      mcScan rest (visited ++ [v]) (queue ++ [v])
    else mcScan rest visited queue

/-- The `while queue:` reachability loop of `min_cut`, on fuel (`none` =
fuel-out, never taken for the fuel used). -/
def mcLoop (G : Graph) :
    Nat → List Node → List Node → Option (Except Err (List Node))
  | 0, _, _ => none
  | fuel + 1, visited, queue =>
    match queue with
    | [] => some (Except.ok visited)
    | cur :: rest =>
      match getAdj G cur with
      | none => some (Except.error Err.UnknownNode)
      | some adj =>
        match mcScan adj visited rest with
        | (v', q') => mcLoop G fuel v' q'

/-- `T = set(G.nodes()) - S` — the unreachable side of the partition. -/
def minCutT (G : Graph) (S : List Node) : List Node :=
  (nodeKeys G).filter (fun n => n ∉ S)

/-- `[(u, v) for u in S for v in G[u] if v in T]` — the edges crossing
from `S` into `T`.  The inner `G[u]` lookup cannot fail for `u` in the
visited set; the `[]` branch mirrors that unreachable state. -/
def minCutEdges (G : Graph) (S T : List Node) : List (Node × Node) :=
  S.flatMap (fun u =>
    match getAdj G u with
    | none => []
    | some adj => (adj.filter (fun q => q.1 ∈ T)).map (fun q => (u, q.1)))

/-- `[G[u][v]['enzyme'] for u, v in mincut_edges]`. -/
def minCutEnzymes (G : Graph) (cut : List (Node × Node)) : List String :=
  cut.map (fun e =>
    match getEdge G e.1 e.2 with
    | some d => d.enzyme
    | none => "")

/-- `min_cut(G, source)`: residual-reachability BFS from the source; `S`
is the visited set, `T = set(G.nodes()) - S`, the cut edges are every
edge from `S` into `T`, and the rate-limiting enzymes are their labels.
Junk branches (fuel-out, lookups that cannot fail on the reachable set)
mirror the corresponding unreachable Python states. -/
def min_cut (G : Graph) (source : Node) :
    Except Err (List Node × List Node × List (Node × Node) × List String) :=
  match mcLoop G (bfsFuel G) [source] [source] with
  | none => Except.ok ([], [], [], [])
  | some (Except.error e) => Except.error e
  | some (Except.ok S) =>
    Except.ok (S, minCutT G S, minCutEdges G S (minCutT G S),
      minCutEnzymes G (minCutEdges G S (minCutT G S)))

/-! ### Association-list lemmas -/

theorem getAdj_eq_none_iff {G : Graph} {u : Node} :
    getAdj G u = none ↔ u ∉ nodeKeys G := by
  induction G with
  | nil => simp [getAdj, nodeKeys]
  | cons p rest ih =>
    obtain ⟨x, adj⟩ := p
    by_cases h : x = u
    · subst h
      simp [getAdj, nodeKeys]
    · have hux : u ≠ x := fun hh => h hh.symm
      simp [getAdj, nodeKeys, h, hux, ih]

theorem getAdj_mem {G : Graph} {u : Node} {adj : Adj}
    (h : getAdj G u = some adj) : (u, adj) ∈ G := by
  induction G with
  | nil => simp [getAdj] at h
  | cons p rest ih =>
    obtain ⟨x, a⟩ := p
    by_cases hx : x = u
    · subst hx
      simp [getAdj] at h
      simp [h]
    · simp [getAdj, hx] at h
      exact List.mem_cons_of_mem _ (ih h)

theorem getAdj_of_mem {G : Graph} {u : Node} {adj : Adj}
    (hnd : (nodeKeys G).Nodup) (h : (u, adj) ∈ G) : getAdj G u = some adj := by
  induction G with
  | nil => simp at h
  | cons p rest ih =>
    obtain ⟨x, a⟩ := p
    simp only [nodeKeys, List.map_cons, List.nodup_cons] at hnd
    rcases List.mem_cons.mp h with h1 | h1
    · cases h1
      simp [getAdj]
    · have hxu : x ≠ u := by
        rintro rfl
        exact hnd.1 (List.mem_map_of_mem Prod.fst h1)
      simp only [getAdj, if_neg hxu]
      exact ih hnd.2 h1

theorem lookupEdge_mem {adj : Adj} {v : Node} {d : EdgeData}
    (h : lookupEdge adj v = some d) : (v, d) ∈ adj := by
  induction adj with
  | nil => simp [lookupEdge] at h
  | cons q rest ih =>
    obtain ⟨y, e⟩ := q
    by_cases hy : y = v
    · subst hy
      simp [lookupEdge] at h
      simp [h]
    · simp [lookupEdge, hy] at h
      exact List.mem_cons_of_mem _ (ih h)

theorem lookupEdge_of_mem {adj : Adj} {v : Node} {d : EdgeData}
    (hnd : (adj.map Prod.fst).Nodup) (h : (v, d) ∈ adj) :
    lookupEdge adj v = some d := by
  induction adj with
  | nil => simp at h
  | cons q rest ih =>
    obtain ⟨y, e⟩ := q
    simp only [List.map_cons, List.nodup_cons] at hnd
    rcases List.mem_cons.mp h with h1 | h1
    · cases h1
      simp [lookupEdge]
    · have hyv : y ≠ v := by
        rintro rfl
        exact hnd.1 (List.mem_map_of_mem Prod.fst h1)
      simp only [lookupEdge, if_neg hyv]
      exact ih hnd.2 h1

theorem mem_edgeList_iff {G : Graph} {u v : Node} {d : EdgeData} :
    (u, v, d) ∈ edgeList G ↔ ∃ adj, (u, adj) ∈ G ∧ (v, d) ∈ adj := by
  constructor
  · intro h
    rw [edgeList, List.mem_flatMap] at h
    obtain ⟨⟨x, adj⟩, hp, hmem⟩ := h
    rw [List.mem_map] at hmem
    obtain ⟨⟨y, e⟩, hq, heq⟩ := hmem
    simp only [Prod.mk.injEq] at heq
    obtain ⟨h1, h2, h3⟩ := heq
    subst h1; subst h2; subst h3
    exact ⟨adj, hp, hq⟩
  · rintro ⟨adj, hmem, hq⟩
    rw [edgeList, List.mem_flatMap]
    exact ⟨(u, adj), hmem, List.mem_map.mpr ⟨(v, d), hq, rfl⟩⟩

theorem getEdge_mem_edgeList {G : Graph} {u v : Node} {d : EdgeData}
    (h : getEdge G u v = some d) : (u, v, d) ∈ edgeList G := by
  unfold getEdge at h
  cases hadj : getAdj G u with
  | none => rw [hadj] at h; simp at h
  | some adj =>
    rw [hadj] at h
    exact mem_edgeList_iff.mpr ⟨adj, getAdj_mem hadj, lookupEdge_mem h⟩

theorem getEdge_of_mem_edgeList {G : Graph} {u v : Node} {d : EdgeData}
    (hwf : WF G) (h : (u, v, d) ∈ edgeList G) : getEdge G u v = some d := by
  obtain ⟨adj, hmem, hq⟩ := mem_edgeList_iff.mp h
  unfold getEdge
  rw [getAdj_of_mem hwf.1 hmem]
  exact lookupEdge_of_mem (hwf.2.1 _ hmem) hq

theorem mem_allTargets {G : Graph} {u v : Node} {d : EdgeData}
    (h : (u, v, d) ∈ edgeList G) : v ∈ allTargets G := by
  rw [allTargets, List.mem_map]
  exact ⟨(u, v, d), h, rfl⟩

theorem targets_mem_keys {G : Graph} (hwf : WF G) {v : Node}
    (h : v ∈ allTargets G) : v ∈ nodeKeys G := by
  rw [allTargets, List.mem_map] at h
  obtain ⟨⟨u, v2, d⟩, hmem, heq⟩ := h
  cases heq
  obtain ⟨adj, hGmem, hq⟩ := mem_edgeList_iff.mp hmem
  exact hwf.2.2 _ hGmem _ hq

theorem getAdj_targets_mem {G : Graph} {cur : Node} {adj : Adj}
    (h : getAdj G cur = some adj) : ∀ e ∈ adj, e.1 ∈ allTargets G := by
  intro e he
  obtain ⟨v, d⟩ := e
  exact mem_allTargets (mem_edgeList_iff.mpr ⟨adj, getAdj_mem h, he⟩)

theorem getEdge_of_getAdj {G : Graph} {cur : Node} {adj : Adj}
    (hwf : WF G) (h : getAdj G cur = some adj) :
    ∀ v d, (v, d) ∈ adj → getEdge G cur v = some d := by
  intro v d hvd
  unfold getEdge
  rw [h]
  exact lookupEdge_of_mem (hwf.2.1 _ (getAdj_mem h)) hvd

/-! ### Effect of one flow bump and of a whole augmentation -/

theorem edgeList_cons (p : Node × Adj) (rest : Graph) :
    edgeList (p :: rest) = p.2.map (fun q => (p.1, q.1, q.2)) ++ edgeList rest := by
  simp [edgeList]

theorem bumpFlow_cons (k : Node) (a : Adj) (rest : Graph) (u v : Node) (b : ℚ) :
    bumpFlow ((k, a) :: rest) u v b =
      (if k = u then (k, bumpAdj b v a) else (k, a)) :: bumpFlow rest u v b := by
  by_cases h : k = u <;> simp [bumpFlow, h]

theorem bumpAdj_cons (z : Node) (d : EdgeData) (rest : Adj) (v : Node) (b : ℚ) :
    bumpAdj b v ((z, d) :: rest) =
      (if z = v then (z, bumpEdge b d) else (z, d)) :: bumpAdj b v rest := by
  by_cases h : z = v <;> simp [bumpAdj, h]

theorem nodeKeys_bumpFlow (G : Graph) (u v : Node) (b : ℚ) :
    nodeKeys (bumpFlow G u v b) = nodeKeys G := by
  unfold nodeKeys bumpFlow
  rw [List.map_map]
  apply List.map_congr_left
  intro p _
  by_cases h : p.1 = u <;> simp [h]

theorem lookupEdge_bumpAdj (adj : Adj) (v y : Node) (b : ℚ) :
    lookupEdge (bumpAdj b v adj) y =
      if y = v then (lookupEdge adj y).map (bumpEdge b)
      else lookupEdge adj y := by
  induction adj with
  | nil => by_cases h : y = v <;> simp [bumpAdj, lookupEdge, h]
  | cons q rest ih =>
    obtain ⟨z, d⟩ := q
    rw [bumpAdj_cons]
    by_cases hz : z = v
    · subst hz
      rw [if_pos rfl]
      by_cases hy : z = y
      · subst hy
        simp [lookupEdge]
      · simp [lookupEdge, hy, Ne.symm hy, ih]
    · rw [if_neg hz]
      by_cases hy : z = y
      · subst hy
        simp [lookupEdge, hz]
      · simp [lookupEdge, hy, ih]

theorem getAdj_bumpFlow (G : Graph) (u v x : Node) (b : ℚ) :
    getAdj (bumpFlow G u v b) x =
      if x = u then (getAdj G x).map (bumpAdj b v) else getAdj G x := by
  induction G with
  | nil => by_cases h : x = u <;> simp [bumpFlow, getAdj, h]
  | cons p rest ih =>
    obtain ⟨k, a⟩ := p
    rw [bumpFlow_cons]
    by_cases hk : k = u
    · rw [if_pos hk]
      subst hk
      by_cases hx : k = x
      · subst hx
        simp [getAdj]
      · simp [getAdj, hx, Ne.symm hx, ih]
    · rw [if_neg hk]
      by_cases hx : k = x
      · subst hx
        simp [getAdj, hk]
      · simp [getAdj, hx, ih]

theorem getEdge_bumpFlow (G : Graph) (u v x y : Node) (b : ℚ) :
    getEdge (bumpFlow G u v b) x y =
      if x = u ∧ y = v then (getEdge G x y).map (bumpEdge b)
      else getEdge G x y := by
  by_cases hx : x = u
  · by_cases hy : y = v
    · rw [if_pos (⟨hx, hy⟩ : x = u ∧ y = v)]
      unfold getEdge
      rw [getAdj_bumpFlow, if_pos hx]
      cases hA : getAdj G x with
      | none => simp
      | some adj => simp [lookupEdge_bumpAdj, hy]
    · rw [if_neg (fun h : x = u ∧ y = v => hy h.2)]
      unfold getEdge
      rw [getAdj_bumpFlow, if_pos hx]
      cases hA : getAdj G x with
      | none => simp
      | some adj => simp [lookupEdge_bumpAdj, hy]
  · rw [if_neg (fun h : x = u ∧ y = v => hx h.1)]
    unfold getEdge
    rw [getAdj_bumpFlow, if_neg hx]

theorem bumpEdge_count_pos (b : ℚ) (d : EdgeData) (xy e : Node × Node)
    (rest : List (Node × Node)) (hpair : xy = e) :
    ({ bumpEdge b d with
        flow := (bumpEdge b d).flow + b * ((rest.count xy : ℕ) : ℚ) } : EdgeData) =
      { d with flow := d.flow + b * (((e :: rest).count xy : ℕ) : ℚ) } := by
  have hcn : (e :: rest).count xy = rest.count xy + 1 := by
    rw [List.count_cons]
    simp [hpair]
  rw [hcn]
  simp only [bumpEdge]
  congr 1
  push_cast
  ring

theorem count_cons_ne (xy e : Node × Node) (rest : List (Node × Node))
    (hpair : xy ≠ e) : (e :: rest).count xy = rest.count xy := by
  have h2 : ¬e = xy := fun h => hpair h.symm
  rw [List.count_cons]
  simp [hpair, h2]

theorem getEdge_augmentPath (G : Graph) (b : ℚ)
    (path : List (Node × Node)) (x y : Node) :
    getEdge (augmentPath G b path) x y =
      (getEdge G x y).map
        (fun d => { d with flow := d.flow + b * (path.count (x, y) : ℚ) }) := by
  induction path generalizing G with
  | nil =>
    have h0 : augmentPath G b [] = G := rfl
    rw [h0]
    cases h : getEdge G x y with
    | none => simp
    | some d => simp
  | cons e rest ih =>
    have step : augmentPath G b (e :: rest) =
        augmentPath (bumpFlow G e.1 e.2 b) b rest := rfl
    rw [step, ih, getEdge_bumpFlow]
    by_cases hxy : x = e.1 ∧ y = e.2
    · have hpair : ((x, y) : Node × Node) = e := by
        rw [hxy.1, hxy.2]
      rw [if_pos hxy]
      cases hE : getEdge G x y with
      | none => simp
      | some d =>
        simp only [Option.map_some']
        exact congrArg some (bumpEdge_count_pos b d (x, y) e rest hpair)
    · have hne : ((x, y) : Node × Node) ≠ e := by
        intro hh
        exact hxy ⟨congrArg Prod.fst hh, congrArg Prod.snd hh⟩
      rw [if_neg hxy, count_cons_ne (x, y) e rest hne]

theorem nodeKeys_augmentPath (G : Graph) (b : ℚ) (path : List (Node × Node)) :
    nodeKeys (augmentPath G b path) = nodeKeys G := by
  induction path generalizing G with
  | nil => rfl
  | cons e rest ih =>
    have step : augmentPath G b (e :: rest) =
        augmentPath (bumpFlow G e.1 e.2 b) b rest := rfl
    rw [step, ih, nodeKeys_bumpFlow]

theorem edgeList_bumpFlow (G : Graph) (u v : Node) (b : ℚ) :
    edgeList (bumpFlow G u v b) =
      (edgeList G).map (fun e =>
        if e.1 = u ∧ e.2.1 = v then (e.1, e.2.1, bumpEdge b e.2.2) else e) := by
  induction G with
  | nil => rfl
  | cons p rest ih =>
    obtain ⟨k, a⟩ := p
    rw [bumpFlow_cons]
    by_cases hk : k = u
    · subst hk
      rw [if_pos rfl, edgeList_cons, edgeList_cons, List.map_append, ih]
      congr 1
      simp only [bumpAdj, List.map_map]
      apply List.map_congr_left
      intro q _
      by_cases hq : q.1 = v <;> simp [hq]
    · rw [if_neg hk, edgeList_cons, edgeList_cons, List.map_append, ih]
      congr 1
      rw [List.map_map]
      apply List.map_congr_left
      intro q _
      have hnk : ¬(k = u ∧ q.1 = v) := fun hh => hk hh.1
      simp [hnk]

theorem edgeList_augmentPath (G : Graph) (b : ℚ) (path : List (Node × Node)) :
    edgeList (augmentPath G b path) =
      (edgeList G).map (fun e =>
        (e.1, e.2.1,
          { e.2.2 with flow := e.2.2.flow + b * (path.count (e.1, e.2.1) : ℚ) })) := by
  induction path generalizing G with
  | nil =>
    show edgeList G = _
    refine Eq.symm ((List.map_congr_left ?_).trans (List.map_id _))
    intro e _
    simp
  | cons e rest ih =>
    have step : augmentPath G b (e :: rest) =
        augmentPath (bumpFlow G e.1 e.2 b) b rest := rfl
    rw [step, ih, edgeList_bumpFlow, List.map_map]
    apply List.map_congr_left
    intro q _
    simp only [Function.comp_apply]
    by_cases hq : q.1 = e.1 ∧ q.2.1 = e.2
    · have hpair : ((q.1, q.2.1) : Node × Node) = e := by
        rw [hq.1, hq.2]
      rw [if_pos hq]
      exact congrArg (fun t => (q.1, q.2.1, t))
        (bumpEdge_count_pos b q.2.2 (q.1, q.2.1) e rest hpair)
    · have hpair : ((q.1, q.2.1) : Node × Node) ≠ e := by
        intro hh
        exact hq ⟨congrArg Prod.fst hh, congrArg Prod.snd hh⟩
      rw [if_neg hq, count_cons_ne (q.1, q.2.1) e rest hpair]

theorem WF_bumpFlow {G : Graph} (hwf : WF G) (u v : Node) (b : ℚ) :
    WF (bumpFlow G u v b) := by
  obtain ⟨h1, h2, h3⟩ := hwf
  refine ⟨by rwa [nodeKeys_bumpFlow], ?_, ?_⟩
  · intro p hp
    rw [bumpFlow, List.mem_map] at hp
    obtain ⟨p0, hp0, heq⟩ := hp
    have hfst : p.2.map Prod.fst = p0.2.map Prod.fst := by
      rw [← heq]
      by_cases h : p0.1 = u
      · simp only [if_pos h, bumpAdj, List.map_map]
        apply List.map_congr_left
        intro q _
        by_cases hq : q.1 = v <;> simp [hq]
      · simp [h]
    rw [hfst]
    exact h2 p0 hp0
  · intro p hp q hq
    rw [nodeKeys_bumpFlow]
    rw [bumpFlow, List.mem_map] at hp
    obtain ⟨p0, hp0, heq⟩ := hp
    by_cases h : p0.1 = u
    · rw [← heq] at hq
      simp only [if_pos h, bumpAdj, List.mem_map] at hq
      obtain ⟨q0, hq0, heq0⟩ := hq
      have hq1 : q.1 = q0.1 := by
        rw [← heq0]
        by_cases hv : q0.1 = v <;> simp [hv]
      rw [hq1]
      exact h3 p0 hp0 q0 hq0
    · rw [← heq] at hq
      simp only [if_neg h] at hq
      exact h3 p0 hp0 q hq

theorem WF_augmentPath {G : Graph} (hwf : WF G) (b : ℚ)
    (path : List (Node × Node)) : WF (augmentPath G b path) := by
  induction path generalizing G with
  | nil => exact hwf
  | cons e rest ih =>
    have step : augmentPath G b (e :: rest) =
        augmentPath (bumpFlow G e.1 e.2 b) b rest := rfl
    rw [step]
    exact ih (WF_bumpFlow hwf e.1 e.2 b)

/-! ### Predecessor-dict positions and the BFS traversal invariant -/

/-- Position of the first entry with the given key in a traversal dict. -/
def keyIdx : Trav → Node → Nat
  | [], _ => 0
  | (m, _) :: rest, n => if m = n then 0 else keyIdx rest n + 1

theorem keyIdx_lt_length {trav : Trav} {n : Node}
    (h : n ∈ trav.map Prod.fst) : keyIdx trav n < trav.length := by
  induction trav with
  | nil => simp at h
  | cons e rest ih =>
    obtain ⟨m, pr⟩ := e
    by_cases hm : m = n
    · simp [keyIdx, hm]
    · rw [List.map_cons, List.mem_cons] at h
      rcases h with h | h
      · exact absurd h.symm hm
      · simp only [keyIdx, if_neg hm, List.length_cons]
        exact Nat.succ_lt_succ (ih h)

theorem keyIdx_append_left {trav : Trav} {n : Node}
    (h : n ∈ trav.map Prod.fst) (ext : Trav) :
    keyIdx (trav ++ ext) n = keyIdx trav n := by
  induction trav with
  | nil => simp at h
  | cons e rest ih =>
    obtain ⟨m, pr⟩ := e
    by_cases hm : m = n
    · simp [keyIdx, hm]
    · rw [List.map_cons, List.mem_cons] at h
      rcases h with h | h
      · exact absurd h.symm hm
      · simp only [List.cons_append, keyIdx, if_neg hm]
        exact congrArg (fun t => t + 1) (ih h)

theorem keyIdx_append_new {trav : Trav} {n : Node}
    (h : n ∉ trav.map Prod.fst) (pr : Option Node) :
    keyIdx (trav ++ [(n, pr)]) n = trav.length := by
  induction trav with
  | nil => simp [keyIdx]
  | cons e rest ih =>
    obtain ⟨m, p2⟩ := e
    rw [List.map_cons, List.mem_cons] at h
    push_neg at h
    have hm : m ≠ n := fun hh => h.1 hh.symm
    simp only [List.cons_append, keyIdx, if_neg hm, List.length_cons]
    exact congrArg (fun t => t + 1) (ih h.2)

theorem lookupTrav_some_of_mem_keys {trav : Trav} {n : Node}
    (h : n ∈ trav.map Prod.fst) :
    ∃ pr, lookupTrav trav n = some pr ∧ (n, pr) ∈ trav := by
  induction trav with
  | nil => simp at h
  | cons e rest ih =>
    obtain ⟨m, pr⟩ := e
    by_cases hm : m = n
    · subst hm
      exact ⟨pr, by simp [lookupTrav], by simp⟩
    · rw [List.map_cons, List.mem_cons] at h
      rcases h with h | h
      · exact absurd h.symm hm
      · obtain ⟨pr2, h1, h2⟩ := ih h
        exact ⟨pr2, by simp [lookupTrav, hm, h1], List.mem_cons_of_mem _ h2⟩

/-- The invariant of the predecessor dict built by the BFS: distinct keys;
the search source is recorded with predecessor `none`; every other entry
points to an earlier key, across a residual-positive edge of the graph. -/
def TravInv (G : Graph) (source : Node) (trav : Trav) : Prop :=
  (trav.map Prod.fst).Nodup ∧
    (source, (none : Option Node)) ∈ trav ∧
    (∀ e ∈ trav, e.2 = none → e.1 = source) ∧
    (∀ e ∈ trav, ∀ p, e.2 = some p →
      p ∈ trav.map Prod.fst ∧ keyIdx trav p < keyIdx trav e.1 ∧
        ∃ d, getEdge G p e.1 = some d ∧ 0 < residual d)

/-- The Python `visited` set always holds exactly the traversal keys. -/
def VisInv (visited : List Node) (trav : Trav) : Prop :=
  ∀ n, n ∈ visited ↔ n ∈ trav.map Prod.fst

theorem TravInv_init (G : Graph) (source : Node) :
    TravInv G source [(source, none)] := by
  refine ⟨by simp, by simp, ?_, ?_⟩
  · intro e he _
    rw [List.mem_singleton] at he
    rw [he]
  · intro e he p hp
    rw [List.mem_singleton] at he
    rw [he] at hp
    simp at hp

theorem TravInv_append {G : Graph} {source : Node} {trav : Trav}
    (hinv : TravInv G source trav) {v cur : Node} {d : EdgeData}
    (hv : v ∉ trav.map Prod.fst) (hcur : cur ∈ trav.map Prod.fst)
    (hedge : getEdge G cur v = some d) (hres : 0 < residual d) :
    TravInv G source (trav ++ [(v, some cur)]) := by
  obtain ⟨hnd, hsrc, hnone, hprops⟩ := hinv
  have hkeys : (trav ++ [(v, some cur)]).map Prod.fst =
      trav.map Prod.fst ++ [v] := by
    simp
  refine ⟨?_, List.mem_append_left _ hsrc, ?_, ?_⟩
  · rw [hkeys, List.nodup_append]
    refine ⟨hnd, List.nodup_singleton v, ?_⟩
    intro a ha hb
    rw [List.mem_singleton] at hb
    exact hv (hb ▸ ha)
  · intro e he hne
    rcases List.mem_append.mp he with h | h
    · exact hnone e h hne
    · rw [List.mem_singleton] at h
      rw [h] at hne
      simp at hne
  · intro e he p hp
    rcases List.mem_append.mp he with h | h
    · obtain ⟨hp1, hp2, hp3⟩ := hprops e h p hp
      have hefst : e.1 ∈ trav.map Prod.fst := List.mem_map_of_mem Prod.fst h
      refine ⟨by rw [hkeys]; exact List.mem_append_left _ hp1, ?_, hp3⟩
      rw [keyIdx_append_left hp1, keyIdx_append_left hefst]
      exact hp2
    · rw [List.mem_singleton] at h
      subst h
      simp only at hp
      injection hp with hp
      subst hp
      refine ⟨by rw [hkeys]; exact List.mem_append_left _ hcur, ?_, d, hedge, hres⟩
      rw [keyIdx_append_left hcur, keyIdx_append_new hv]
      exact keyIdx_lt_length hcur

theorem TravInv_fst_mem {trav : Trav} {e : Node × Option Node}
    (he : e ∈ trav) : e.1 ∈ trav.map Prod.fst :=
  List.mem_map_of_mem Prod.fst he

/-! ### Behaviour of the BFS neighbor scan -/

theorem bfsScan_shape (sink cur : Node) :
    ∀ (adj : Adj) (visited queue : List Node) (trav : Trav)
      (v' q' : List Node) (t' : Trav),
      bfsScan sink cur adj visited queue trav = Sum.inl (v', q', t') →
      (∀ n ∈ v', n ∈ visited ∨ ∃ d, (n, d) ∈ adj) ∧
        (∀ n ∈ visited, n ∈ v') ∧ (∀ n ∈ q', n ∈ queue ∨ n ∈ v') := by
  intro adj
  induction adj with
  | nil =>
    intro visited queue trav v' q' t' h
    simp only [bfsScan, Sum.inl.injEq, Prod.mk.injEq] at h
    obtain ⟨h1, h2, _⟩ := h
    subst h1; subst h2
    exact ⟨fun n hn => Or.inl hn, fun n hn => hn, fun n hn => Or.inl hn⟩
  | cons e rest ih =>
    obtain ⟨v, d⟩ := e
    intro visited queue trav v' q' t' h
    simp only [bfsScan] at h
    by_cases hc : 0 < residual d ∧ v ∉ visited
    · rw [if_pos hc] at h
      by_cases hv : v = sink
      · rw [if_pos hv] at h
        exact absurd h (by simp)
      · rw [if_neg hv] at h
        obtain ⟨c1, c2, c3⟩ := ih _ _ _ _ _ _ h
        refine ⟨?_, ?_, ?_⟩
        · intro n hn
          rcases c1 n hn with h1 | ⟨d2, h2⟩
          · rcases List.mem_append.mp h1 with h2 | h2
            · exact Or.inl h2
            · rw [List.mem_singleton] at h2
              exact Or.inr ⟨d, h2 ▸ List.mem_cons_self _ _⟩
          · exact Or.inr ⟨d2, List.mem_cons_of_mem _ h2⟩
        · intro n hn
          exact c2 n (List.mem_append_left _ hn)
        · intro n hn
          rcases c3 n hn with h1 | h1
          · rcases List.mem_append.mp h1 with h2 | h2
            · exact Or.inl h2
            · exact Or.inr (c2 n (List.mem_append_right _ h2))
          · exact Or.inr h1
    · rw [if_neg hc] at h
      obtain ⟨c1, c2, c3⟩ := ih _ _ _ _ _ _ h
      refine ⟨fun n hn => ?_, c2, c3⟩
      rcases c1 n hn with h1 | ⟨d2, h2⟩
      · exact Or.inl h1
      · exact Or.inr ⟨d2, List.mem_cons_of_mem _ h2⟩

theorem bfsScan_main (G : Graph) (source sink cur : Node) :
    ∀ (adj : Adj) (visited queue : List Node) (trav : Trav),
      TravInv G source trav → VisInv visited trav → cur ∈ visited →
      (∀ v d, (v, d) ∈ adj → getEdge G cur v = some d) →
      (∀ v' q' t', bfsScan sink cur adj visited queue trav = Sum.inl (v', q', t') →
        TravInv G source t' ∧ VisInv v' t') ∧
      (∀ t', bfsScan sink cur adj visited queue trav = Sum.inr t' →
        TravInv G source t' ∧ sink ∈ t'.map Prod.fst ∧ sink ∉ visited) := by
  intro adj
  induction adj with
  | nil =>
    intro visited queue trav hinv hvis _ _
    constructor
    · intro v' q' t' h
      simp only [bfsScan, Sum.inl.injEq, Prod.mk.injEq] at h
      obtain ⟨h1, _, h3⟩ := h
      subst h1; subst h3
      exact ⟨hinv, hvis⟩
    · intro t' h
      exact absurd h (by simp [bfsScan])
  | cons e rest ih =>
    obtain ⟨v, d⟩ := e
    intro visited queue trav hinv hvis hcur hadj
    have hstep : ∀ hc : 0 < residual d ∧ v ∉ visited,
        TravInv G source (trav ++ [(v, some cur)]) := by
      intro hc
      exact TravInv_append hinv (fun hh => hc.2 ((hvis v).mpr hh))
        ((hvis cur).mp hcur) (hadj v d (List.mem_cons_self _ _)) hc.1
    constructor
    · intro v' q' t' h
      simp only [bfsScan] at h
      by_cases hc : 0 < residual d ∧ v ∉ visited
      · rw [if_pos hc] at h
        by_cases hv : v = sink
        · rw [if_pos hv] at h
          exact absurd h (by simp)
        · rw [if_neg hv] at h
          have hvis' : VisInv (visited ++ [v]) (trav ++ [(v, some cur)]) := by
            intro n
            simp [List.mem_append, hvis n]
          have hcur' : cur ∈ visited ++ [v] := List.mem_append_left _ hcur
          have hadj' : ∀ w dw, (w, dw) ∈ rest → getEdge G cur w = some dw :=
            fun w dw hw => hadj w dw (List.mem_cons_of_mem _ hw)
          exact (ih _ _ _ (hstep hc) hvis' hcur' hadj').1 v' q' t' h
      · rw [if_neg hc] at h
        have hadj' : ∀ w dw, (w, dw) ∈ rest → getEdge G cur w = some dw :=
          fun w dw hw => hadj w dw (List.mem_cons_of_mem _ hw)
        exact (ih _ _ _ hinv hvis hcur hadj').1 v' q' t' h
    · intro t' h
      simp only [bfsScan] at h
      by_cases hc : 0 < residual d ∧ v ∉ visited
      · rw [if_pos hc] at h
        by_cases hv : v = sink
        · rw [if_pos hv] at h
          have ht : t' = trav ++ [(v, some cur)] := by
            injection h with h2
            exact h2.symm
          subst ht
          refine ⟨hstep hc, ?_, hv ▸ hc.2⟩
          rw [List.map_append]
          exact List.mem_append_right _ (by simp [hv])
        · rw [if_neg hv] at h
          have hvis' : VisInv (visited ++ [v]) (trav ++ [(v, some cur)]) := by
            intro n
            simp [List.mem_append, hvis n]
          have hcur' : cur ∈ visited ++ [v] := List.mem_append_left _ hcur
          have hadj' : ∀ w dw, (w, dw) ∈ rest → getEdge G cur w = some dw :=
            fun w dw hw => hadj w dw (List.mem_cons_of_mem _ hw)
          obtain ⟨h1, h2, h3⟩ := (ih _ _ _ (hstep hc) hvis' hcur' hadj').2 t' h
          exact ⟨h1, h2, fun hh => h3 (List.mem_append_left _ hh)⟩
      · rw [if_neg hc] at h
        have hadj' : ∀ w dw, (w, dw) ∈ rest → getEdge G cur w = some dw :=
          fun w dw hw => hadj w dw (List.mem_cons_of_mem _ hw)
        exact (ih _ _ _ hinv hvis hcur hadj').2 t' h

theorem bfsScan_no_inr (sink cur : Node) :
    ∀ (adj : Adj) (visited queue : List Node) (trav : Trav),
      (sink ∈ visited ∨ ∀ e ∈ adj, e.1 ≠ sink) →
      ∀ t', bfsScan sink cur adj visited queue trav ≠ Sum.inr t' := by
  intro adj
  induction adj with
  | nil =>
    intro visited queue trav _ t' h
    simp [bfsScan] at h
  | cons e rest ih =>
    obtain ⟨v, d⟩ := e
    intro visited queue trav hcond t' h
    simp only [bfsScan] at h
    by_cases hc : 0 < residual d ∧ v ∉ visited
    · rw [if_pos hc] at h
      by_cases hv : v = sink
      · rcases hcond with h1 | h1
        · exact hc.2 (hv ▸ h1)
        · exact h1 (v, d) (List.mem_cons_self _ _) hv
      · rw [if_neg hv] at h
        refine ih _ _ _ ?_ t' h
        rcases hcond with h1 | h1
        · exact Or.inl (List.mem_append_left _ h1)
        · exact Or.inr (fun e2 he2 => h1 e2 (List.mem_cons_of_mem _ he2))
    · rw [if_neg hc] at h
      refine ih _ _ _ ?_ t' h
      rcases hcond with h1 | h1
      · exact Or.inl h1
      · exact Or.inr (fun e2 he2 => h1 e2 (List.mem_cons_of_mem _ he2))

/-! ### Fuel sufficiency for the BFS loop -/

/-- Number of universe nodes not yet visited. -/
def unseenCount (U visited : List Node) : Nat :=
  U.countP (fun x => decide (x ∉ visited))

theorem countP_le_countP_of_imp {α : Type} (l : List α) (p q : α → Bool)
    (h : ∀ x ∈ l, p x = true → q x = true) : l.countP p ≤ l.countP q := by
  induction l with
  | nil => simp
  | cons a l ih =>
    rw [List.countP_cons, List.countP_cons]
    have hih := ih (fun x hx => h x (List.mem_cons_of_mem _ hx))
    by_cases hpa : p a = true
    · have hqa : q a = true := h a (List.mem_cons_self a l) hpa
      rw [hpa, hqa, if_pos rfl]
      omega
    · rw [eq_false_of_ne_true hpa, if_neg Bool.false_ne_true]
      by_cases hqa : q a = true
      · rw [hqa, if_pos rfl]
        omega
      · rw [eq_false_of_ne_true hqa, if_neg Bool.false_ne_true]
        omega

theorem unseenCount_append_lt {U : List Node} {v : Node} (visited : List Node)
    (hU : v ∈ U) (hv : v ∉ visited) :
    unseenCount U (visited ++ [v]) < unseenCount U visited := by
  unfold unseenCount
  induction U with
  | nil => simp at hU
  | cons u U2 ih =>
    rw [List.countP_cons, List.countP_cons]
    by_cases hu : u = v
    · subst hu
      have h1 : (decide (u ∉ visited ++ [u])) = false := by simp
      have h2 : (decide (u ∉ visited)) = true := by simp [hv]
      rw [h1, h2]
      have hle : U2.countP (fun x => decide (x ∉ visited ++ [u])) ≤
          U2.countP (fun x => decide (x ∉ visited)) := by
        apply countP_le_countP_of_imp
        intro x _ hx
        simp only [decide_eq_true_eq] at hx ⊢
        exact fun hmem => hx (List.mem_append_left _ hmem)
      rw [if_neg Bool.false_ne_true, if_pos rfl]
      omega
    · have h1 : (decide (u ∉ visited ++ [v])) = (decide (u ∉ visited)) := by
        by_cases hmem : u ∈ visited
        · simp [List.mem_append, hmem]
        · simp [List.mem_append, hmem, hu]
      rw [h1]
      have hU2 : v ∈ U2 := by
        rcases List.mem_cons.mp hU with h | h
        · exact absurd h.symm hu
        · exact h
      have := ih hU2
      omega

theorem bfsScan_measure (sink cur : Node) (U : List Node) :
    ∀ (adj : Adj) (visited queue : List Node) (trav : Trav),
      (∀ e ∈ adj, e.1 ∈ U) →
      ∀ v' q' t', bfsScan sink cur adj visited queue trav = Sum.inl (v', q', t') →
        q'.length + unseenCount U v' ≤ queue.length + unseenCount U visited := by
  intro adj
  induction adj with
  | nil =>
    intro visited queue trav _ v' q' t' h
    simp only [bfsScan, Sum.inl.injEq, Prod.mk.injEq] at h
    obtain ⟨h1, h2, _⟩ := h
    subst h1; subst h2
    exact le_refl _
  | cons e rest ih =>
    obtain ⟨v, d⟩ := e
    intro visited queue trav hU v' q' t' h
    simp only [bfsScan] at h
    by_cases hc : 0 < residual d ∧ v ∉ visited
    · rw [if_pos hc] at h
      by_cases hv : v = sink
      · rw [if_pos hv] at h
        exact absurd h (by simp)
      · rw [if_neg hv] at h
        have hrec := ih (visited ++ [v]) (queue ++ [v]) (trav ++ [(v, some cur)])
          (fun e2 he2 => hU e2 (List.mem_cons_of_mem _ he2)) v' q' t' h
        have hvU : v ∈ U := hU (v, d) (List.mem_cons_self _ _)
        have hlt := unseenCount_append_lt visited hvU hc.2
        have hql : (queue ++ [v]).length = queue.length + 1 := by simp
        omega
    · rw [if_neg hc] at h
      exact ih visited queue trav (fun e2 he2 => hU e2 (List.mem_cons_of_mem _ he2))
        v' q' t' h

theorem bfsLoop_isSome (G : Graph) (sink : Node) :
    ∀ (fuel : Nat) (visited queue : List Node) (trav : Trav),
      queue.length + unseenCount (nodeKeys G ++ allTargets G) visited < fuel →
      (bfsLoop G sink fuel visited queue trav).isSome := by
  intro fuel
  induction fuel with
  | zero =>
    intro visited queue trav h
    omega
  | succ fuel ih =>
    intro visited queue trav h
    cases queue with
    | nil => simp [bfsLoop]
    | cons cur rest =>
      cases hA : getAdj G cur with
      | none => simp [bfsLoop, hA]
      | some adj =>
        cases hS : bfsScan sink cur adj visited rest trav with
        | inr t2 => simp [bfsLoop, hA, hS]
        | inl s =>
          obtain ⟨v', q', t'⟩ := s
          have hm := bfsScan_measure sink cur (nodeKeys G ++ allTargets G) adj
            visited rest trav
            (fun e he => List.mem_append_right _ (getAdj_targets_mem hA e he))
            v' q' t' hS
          have hlen : (cur :: rest).length = rest.length + 1 := rfl
          have hrec := ih v' q' t' (by omega)
          simpa [bfsLoop, hA, hS] using hrec

/-! ### Outcomes of the BFS loop -/

theorem bfsLoop_found (G : Graph) (source sink : Node) (hwf : WF G) :
    ∀ (fuel : Nat) (visited queue : List Node) (trav : Trav),
      TravInv G source trav → VisInv visited trav →
      (∀ n ∈ queue, n ∈ visited) → source ∈ visited →
      ∀ trav', bfsLoop G sink fuel visited queue trav =
          some (Except.ok (some trav')) →
        TravInv G source trav' ∧ sink ∈ trav'.map Prod.fst ∧ sink ≠ source := by
  intro fuel
  induction fuel with
  | zero =>
    intro visited queue trav _ _ _ _ trav' h
    simp [bfsLoop] at h
  | succ fuel ih =>
    intro visited queue trav hinv hvis hqv hsrc trav' h
    cases queue with
    | nil => simp [bfsLoop] at h
    | cons cur rest =>
      cases hA : getAdj G cur with
      | none => simp [bfsLoop, hA] at h
      | some adj =>
        have hadj := getEdge_of_getAdj hwf hA
        have hcur : cur ∈ visited := hqv cur (List.mem_cons_self _ _)
        obtain ⟨hinl, hinr⟩ := bfsScan_main G source sink cur adj visited rest trav
          hinv hvis hcur (fun v d hvd => hadj v d hvd)
        cases hS : bfsScan sink cur adj visited rest trav with
        | inr t2 =>
          have h2 : t2 = trav' := by
            simp only [bfsLoop, hA, hS] at h
            simpa using h
          obtain ⟨hti, hsk, hsv⟩ := hinr t2 hS
          subst h2
          exact ⟨hti, hsk, fun hh => hsv (hh ▸ hsrc)⟩
        | inl s =>
          obtain ⟨v', q', t'⟩ := s
          obtain ⟨hti, hvi⟩ := hinl v' q' t' hS
          have hshape := bfsScan_shape sink cur adj visited rest trav v' q' t' hS
          have hq : ∀ n ∈ q', n ∈ v' := by
            intro n hn
            rcases hshape.2.2 n hn with h1 | h1
            · exact hshape.2.1 n (hqv n (List.mem_cons_of_mem _ h1))
            · exact h1
          have hsrc' : source ∈ v' := hshape.2.1 source hsrc
          have hrec : bfsLoop G sink fuel v' q' t' =
              some (Except.ok (some trav')) := by
            simpa [bfsLoop, hA, hS] using h
          exact ih v' q' t' hti hvi hq hsrc' trav' hrec

theorem bfsLoop_no_exit (G : Graph) (sink : Node) (hwf : WF G) :
    ∀ (fuel : Nat) (visited queue : List Node) (trav : Trav),
      (∀ n ∈ queue, n ∈ visited) → (∀ n ∈ visited, n ∈ nodeKeys G) →
      (sink ∈ visited ∨ sink ∉ allTargets G) →
      bfsLoop G sink fuel visited queue trav = none ∨
        bfsLoop G sink fuel visited queue trav = some (Except.ok none) := by
  intro fuel
  induction fuel with
  | zero =>
    intro visited queue trav _ _ _
    exact Or.inl rfl
  | succ fuel ih =>
    intro visited queue trav hqv hkeys hsink
    cases queue with
    | nil =>
      right
      simp [bfsLoop]
    | cons cur rest =>
      cases hA : getAdj G cur with
      | none =>
        exact absurd (hkeys cur (hqv cur (List.mem_cons_self _ _)))
          (getAdj_eq_none_iff.mp hA)
      | some adj =>
        have hcond : sink ∈ visited ∨ ∀ e ∈ adj, e.1 ≠ sink := by
          rcases hsink with h1 | h1
          · exact Or.inl h1
          · exact Or.inr (fun e he hh => h1 (hh ▸ getAdj_targets_mem hA e he))
        cases hS : bfsScan sink cur adj visited rest trav with
        | inr t2 => exact absurd hS (bfsScan_no_inr sink cur adj visited rest trav hcond t2)
        | inl s =>
          obtain ⟨v', q', t'⟩ := s
          have hshape := bfsScan_shape sink cur adj visited rest trav v' q' t' hS
          have hq : ∀ n ∈ q', n ∈ v' := by
            intro n hn
            rcases hshape.2.2 n hn with h1 | h1
            · exact hshape.2.1 n (hqv n (List.mem_cons_of_mem _ h1))
            · exact h1
          have hkeys' : ∀ n ∈ v', n ∈ nodeKeys G := by
            intro n hn
            rcases hshape.1 n hn with h1 | ⟨d2, h2⟩
            · exact hkeys n h1
            · exact targets_mem_keys hwf (getAdj_targets_mem hA (n, d2) h2)
          have hsink' : sink ∈ v' ∨ sink ∉ allTargets G := by
            rcases hsink with h1 | h1
            · exact Or.inl (hshape.2.1 sink h1)
            · exact Or.inr h1
          have hunfold : bfsLoop G sink (fuel + 1) visited (cur :: rest) trav =
              bfsLoop G sink fuel v' q' t' := by
            simp [bfsLoop, hA, hS]
          rw [hunfold]
          exact ih v' q' t' hq hkeys' hsink'

/-! ### Top-level BFS characterizations -/

theorem bfs_found {G : Graph} {source sink : Node} {trav' : Trav} (hwf : WF G)
    (h : bfs_augmenting_path G source sink = Except.ok (some trav')) :
    TravInv G source trav' ∧ sink ∈ trav'.map Prod.fst ∧ sink ≠ source := by
  unfold bfs_augmenting_path at h
  cases hres : bfsLoop G sink (bfsFuel G) [source] [source] [(source, none)] with
  | none =>
    rw [hres] at h
    simp at h
  | some r =>
    rw [hres] at h
    have hvis : VisInv [source] [(source, none)] := by
      intro n
      simp
    exact bfsLoop_found G source sink hwf (bfsFuel G) [source] [source]
      [(source, none)] (TravInv_init G source) hvis
      (by intro n hn; exact hn) (by simp) trav'
      (by rw [hres]; exact congrArg some h)

theorem unseenCount_singleton_lt {U : List Node} {s : Node} (h : s ∈ U) :
    unseenCount U [s] < U.length := by
  unfold unseenCount
  induction U with
  | nil => simp at h
  | cons u U2 ih =>
    rw [List.countP_cons]
    by_cases hu : u = s
    · subst hu
      have h1 : (decide (u ∉ [u])) = false := by simp
      rw [h1, if_neg Bool.false_ne_true]
      have := List.countP_le_length (l := U2) (p := fun x => decide (x ∉ [u]))
      simp only [List.length_cons]
      omega
    · have hU2 : s ∈ U2 := by
        rcases List.mem_cons.mp h with h1 | h1
        · exact absurd h1.symm hu
        · exact h1
      have := ih hU2
      simp only [List.length_cons]
      have hite2 : (if (decide (u ∉ [s]) : Bool) = true then 1 else 0) ≤ 1 := by
        split <;> omega
      omega

theorem bfs_none {G : Graph} {source sink : Node} (hwf : WF G)
    (hs : source ∈ nodeKeys G) (hsink : sink = source ∨ sink ∉ nodeKeys G) :
    bfs_augmenting_path G source sink = Except.ok none := by
  have hU : source ∈ nodeKeys G ++ allTargets G := List.mem_append_left _ hs
  have hlt : ([source] : List Node).length +
      unseenCount (nodeKeys G ++ allTargets G) [source] < bfsFuel G := by
    unfold bfsFuel
    have := unseenCount_singleton_lt hU
    simp only [List.length_singleton]
    omega
  have hsome := bfsLoop_isSome G sink (bfsFuel G) [source] [source]
    [(source, none)] hlt
  have hcond : sink ∈ ([source] : List Node) ∨ sink ∉ allTargets G := by
    rcases hsink with h | h
    · left; simp [h]
    · right; exact fun hh => h (targets_mem_keys hwf hh)
  have hne := bfsLoop_no_exit G sink hwf (bfsFuel G) [source] [source]
    [(source, none)] (by intro n hn; exact hn)
    (by intro n hn; rw [List.mem_singleton] at hn; rw [hn]; exact hs) hcond
  rcases hne with h | h
  · rw [h] at hsome
    simp at hsome
  · unfold bfs_augmenting_path
    rw [h]

theorem bfs_err {G : Graph} {source sink : Node} (hs : source ∉ nodeKeys G) :
    bfs_augmenting_path G source sink = Except.error Err.UnknownNode := by
  have hA : getAdj G source = none := getAdj_eq_none_iff.mpr hs
  unfold bfs_augmenting_path bfsFuel
  simp [bfsLoop, hA]

/-! ### Chains of consecutive edges and path reconstruction -/

/-- The edge pairs of a walk through consecutive nodes. -/
def chainEdges : List Node → List (Node × Node)
  | [] => []
  | [_] => []
  | a :: b :: rest => (a, b) :: chainEdges (b :: rest)

theorem chainEdges_concat :
    ∀ (vs : List Node) (p n : Node), vs.getLast? = some p →
      chainEdges (vs ++ [n]) = chainEdges vs ++ [(p, n)] := by
  intro vs
  induction vs with
  | nil => intro p n h; simp at h
  | cons a tail ih =>
    intro p n h
    cases tail with
    | nil =>
      simp only [List.getLast?_singleton, Option.some.injEq] at h
      subst h
      rfl
    | cons b rest =>
      rw [List.getLast?_cons_cons] at h
      have := ih p n h
      show (a, b) :: chainEdges ((b :: rest) ++ [n]) = _
      rw [this]
      rfl

theorem chainEdges_ne_nil {vs : List Node} {s t : Node}
    (hhead : vs.head? = some s) (hlast : vs.getLast? = some t)
    (hst : s ≠ t) : chainEdges vs ≠ [] := by
  cases vs with
  | nil => simp at hhead
  | cons a tail =>
    cases tail with
    | nil =>
      simp at hhead hlast
      exact absurd (hhead.symm.trans hlast) hst
    | cons b rest =>
      show (a, b) :: chainEdges (b :: rest) ≠ []
      simp

theorem chainEdges_mem {vs : List Node} {e : Node × Node}
    (h : e ∈ chainEdges vs) : e.1 ∈ vs ∧ e.2 ∈ vs := by
  induction vs with
  | nil => simp [chainEdges] at h
  | cons a tail ih =>
    cases tail with
    | nil => simp [chainEdges] at h
    | cons b rest =>
      rw [show chainEdges (a :: b :: rest) = (a, b) :: chainEdges (b :: rest) from rfl,
        List.mem_cons] at h
      rcases h with h | h
      · subst h
        exact ⟨List.mem_cons_self _ _, List.mem_cons_of_mem _ (List.mem_cons_self _ _)⟩
      · obtain ⟨h1, h2⟩ := ih h
        exact ⟨List.mem_cons_of_mem _ h1, List.mem_cons_of_mem _ h2⟩

theorem chainEdges_nodup : ∀ {vs : List Node}, vs.Nodup → (chainEdges vs).Nodup := by
  intro vs
  induction vs with
  | nil => intro _; simp [chainEdges]
  | cons a tail ih =>
    intro h
    cases tail with
    | nil => simp [chainEdges]
    | cons b rest =>
      rw [show chainEdges (a :: b :: rest) = (a, b) :: chainEdges (b :: rest) from rfl,
        List.nodup_cons]
      rw [List.nodup_cons] at h
      refine ⟨?_, ih h.2⟩
      intro hmem
      exact h.1 ((chainEdges_mem hmem).1)

theorem walkBack_spec {G : Graph} {source : Node} {trav : Trav}
    (hinv : TravInv G source trav) :
    ∀ (fuel : Nat) (n : Node) (acc : List (Node × Node)),
      n ∈ trav.map Prod.fst → keyIdx trav n < fuel →
      ∃ vs : List Node, vs ≠ [] ∧ vs.head? = some source ∧
        vs.getLast? = some n ∧ vs.Nodup ∧
        (∀ m ∈ vs, m ∈ trav.map Prod.fst ∧ keyIdx trav m ≤ keyIdx trav n) ∧
        (∀ e ∈ chainEdges vs, ∃ d, getEdge G e.1 e.2 = some d ∧ 0 < residual d) ∧
        walkBack trav fuel n acc = some (acc ++ (chainEdges vs).reverse) := by
  obtain ⟨hnd, hsrc, hnone, hprops⟩ := hinv
  intro fuel
  induction fuel with
  | zero =>
    intro n acc _ h
    omega
  | succ fuel ih =>
    intro n acc hn hfuel
    obtain ⟨pr, hlook, hmem⟩ := lookupTrav_some_of_mem_keys hn
    cases pr with
    | none =>
      have hns : n = source := hnone (n, none) hmem rfl
      refine ⟨[n], by simp, by simp [hns], by simp, by simp, ?_, ?_, ?_⟩
      · intro m hm
        rw [List.mem_singleton] at hm
        subst hm
        exact ⟨hn, le_refl _⟩
      · intro e he
        simp [chainEdges] at he
      · simp [walkBack, hlook, chainEdges]
    | some p =>
      obtain ⟨hpk, hplt, hd⟩ := hprops (n, some p) hmem p rfl
      have hplt1 : keyIdx trav p < keyIdx trav n := hplt
      have hplt2 : keyIdx trav p < fuel := by omega
      obtain ⟨vs, h1, h2, h3, h4, h5, h6, h7⟩ := ih p (acc ++ [(p, n)]) hpk hplt2
      have hnvs : n ∉ vs := by
        intro hmem2
        have := (h5 n hmem2).2
        have hplt3 : keyIdx trav p < keyIdx trav n := hplt1
        omega
      refine ⟨vs ++ [n], by simp, ?_, ?_, ?_, ?_, ?_, ?_⟩
      · cases vs with
        | nil => exact absurd rfl h1
        | cons a t => simpa using h2
      · rw [List.getLast?_concat]
      · rw [List.nodup_append]
        refine ⟨h4, List.nodup_singleton n, ?_⟩
        intro m hm1 hm2
        rw [List.mem_singleton] at hm2
        exact hnvs (hm2 ▸ hm1)
      · intro m hm
        rcases List.mem_append.mp hm with h | h
        · exact ⟨(h5 m h).1, le_trans (h5 m h).2 (le_of_lt hplt)⟩
        · rw [List.mem_singleton] at h
          subst h
          exact ⟨hn, le_refl _⟩
      · intro e he
        rw [chainEdges_concat vs p n h3, List.mem_append] at he
        rcases he with h | h
        · exact h6 e h
        · rw [List.mem_singleton] at h
          subst h
          exact hd
      · have hwb : walkBack trav (fuel + 1) n acc =
            walkBack trav fuel p (acc ++ [(p, n)]) := by
          simp [walkBack, hlook]
        rw [hwb, h7, chainEdges_concat vs p n h3, List.reverse_append]
        simp

theorem reconstructPath_spec {G : Graph} {source sink : Node} {trav : Trav}
    (hinv : TravInv G source trav) (hsink : sink ∈ trav.map Prod.fst)
    (hne : sink ≠ source) :
    ∃ vs path, reconstructPath trav sink = some path ∧ path = chainEdges vs ∧
      vs.head? = some source ∧ vs.getLast? = some sink ∧ vs.Nodup ∧
      (∀ e ∈ path, ∃ d, getEdge G e.1 e.2 = some d ∧ 0 < residual d) ∧
      path ≠ [] := by
  obtain ⟨vs, h1, h2, h3, h4, h5, h6, h7⟩ :=
    walkBack_spec hinv trav.length sink [] hsink (keyIdx_lt_length hsink)
  refine ⟨vs, chainEdges vs, ?_, rfl, h2, h3, h4, h6, ?_⟩
  · unfold reconstructPath
    rw [h7]
    simp
  · exact chainEdges_ne_nil h2 h3 (fun hh => hne hh.symm)

/-! ### Bottleneck: folding `min` over the path residuals -/

theorem foldl_min_le_init (l : List ℚ) (init : ℚ) : l.foldl min init ≤ init := by
  induction l generalizing init with
  | nil => exact le_refl _
  | cons x xs ih => exact le_trans (ih (min init x)) (min_le_left _ _)

theorem foldl_min_le_mem {l : List ℚ} {x : ℚ} (h : x ∈ l) (init : ℚ) :
    l.foldl min init ≤ x := by
  induction l generalizing init with
  | nil => simp at h
  | cons y ys ih =>
    rcases List.mem_cons.mp h with h1 | h1
    · subst h1
      exact le_trans (foldl_min_le_init ys (min init x)) (min_le_right _ _)
    · exact ih h1 (min init y)

theorem lt_foldl_min {l : List ℚ} {c : ℚ} :
    ∀ {init : ℚ}, c < init → (∀ x ∈ l, c < x) → c < l.foldl min init := by
  induction l with
  | nil => intro init h0 _; exact h0
  | cons y ys ih =>
    intro init h0 h
    exact ih (lt_min h0 (h y (List.mem_cons_self _ _)))
      (fun x hx => h x (List.mem_cons_of_mem _ hx))

theorem foldl_min_attained (l : List ℚ) :
    ∀ init : ℚ, l.foldl min init = init ∨ l.foldl min init ∈ l := by
  induction l with
  | nil => intro init; exact Or.inl rfl
  | cons y ys ih =>
    intro init
    rcases ih (min init y) with h | h
    · rcases le_total init y with hle | hle
      · exact Or.inl (by rw [List.foldl_cons, h, min_eq_left hle])
      · exact Or.inr (by rw [List.foldl_cons, h, min_eq_right hle]; exact List.mem_cons_self _ _)
    · exact Or.inr (List.mem_cons_of_mem _ h)

theorem pathBottleneck_cons (G : Graph) (e : Node × Node)
    (es : List (Node × Node)) :
    pathBottleneck G (e :: es) =
      (es.map (fun e2 => residAt G e2.1 e2.2)).foldl min (residAt G e.1 e.2) := by
  rw [pathBottleneck, List.foldl_map]

theorem pathBottleneck_le {G : Graph} {path : List (Node × Node)}
    {e : Node × Node} (he : e ∈ path) :
    pathBottleneck G path ≤ residAt G e.1 e.2 := by
  cases path with
  | nil => simp at he
  | cons e0 es =>
    rw [pathBottleneck_cons]
    rcases List.mem_cons.mp he with h | h
    · subst h
      exact foldl_min_le_init _ _
    · exact foldl_min_le_mem (List.mem_map_of_mem _ h) _

theorem pathBottleneck_pos {G : Graph} {path : List (Node × Node)}
    (hne : path ≠ []) (h : ∀ e ∈ path, 0 < residAt G e.1 e.2) :
    0 < pathBottleneck G path := by
  cases path with
  | nil => exact absurd rfl hne
  | cons e0 es =>
    rw [pathBottleneck_cons]
    refine lt_foldl_min (h e0 (List.mem_cons_self _ _)) ?_
    intro x hx
    rw [List.mem_map] at hx
    obtain ⟨e2, he2, hx2⟩ := hx
    rw [← hx2]
    exact h e2 (List.mem_cons_of_mem _ he2)

theorem pathBottleneck_attained {G : Graph} {path : List (Node × Node)}
    (hne : path ≠ []) :
    ∃ e ∈ path, pathBottleneck G path = residAt G e.1 e.2 := by
  cases path with
  | nil => exact absurd rfl hne
  | cons e0 es =>
    rw [pathBottleneck_cons]
    rcases foldl_min_attained (es.map (fun e2 => residAt G e2.1 e2.2))
        (residAt G e0.1 e0.2) with h | h
    · exact ⟨e0, List.mem_cons_self _ _, h⟩
    · rw [List.mem_map] at h
      obtain ⟨e2, he2, hx2⟩ := h
      exact ⟨e2, List.mem_cons_of_mem _ he2, hx2.symm⟩

theorem residAt_eq {G : Graph} {u v : Node} {d : EdgeData}
    (h : getEdge G u v = some d) : residAt G u v = residual d := by
  simp [residAt, h]

/-! ### Summation toolkit -/

/-- Sum of a rational-valued function over a list. -/
def sumBy {α : Type} (l : List α) (f : α → ℚ) : ℚ := (l.map f).sum

theorem sumBy_nil {α : Type} (f : α → ℚ) : sumBy [] f = 0 := rfl

theorem sumBy_cons {α : Type} (a : α) (l : List α) (f : α → ℚ) :
    sumBy (a :: l) f = f a + sumBy l f := by
  simp [sumBy]

theorem sumBy_append {α : Type} (l1 l2 : List α) (f : α → ℚ) :
    sumBy (l1 ++ l2) f = sumBy l1 f + sumBy l2 f := by
  simp [sumBy]

theorem sumBy_congr {α : Type} {l : List α} {f g : α → ℚ}
    (h : ∀ x ∈ l, f x = g x) : sumBy l f = sumBy l g := by
  unfold sumBy
  rw [List.map_congr_left h]

theorem sumBy_add {α : Type} (l : List α) (f g : α → ℚ) :
    sumBy l (fun x => f x + g x) = sumBy l f + sumBy l g := by
  induction l with
  | nil => simp [sumBy_nil]
  | cons a t ih =>
    rw [sumBy_cons, sumBy_cons, sumBy_cons, ih]
    ring

theorem sumBy_map {α β : Type} (l : List α) (f : α → β) (g : β → ℚ) :
    sumBy (l.map f) g = sumBy l (fun x => g (f x)) := by
  unfold sumBy
  rw [List.map_map]
  rfl

theorem sumBy_ite_eq {α : Type} (l : List α) (p : α → Prop) [DecidablePred p]
    (b : ℚ) :
    sumBy l (fun x => if p x then b else 0) =
      b * (l.countP (fun x => decide (p x)) : ℚ) := by
  induction l with
  | nil => simp [sumBy_nil]
  | cons a t ih =>
    rw [sumBy_cons, ih, List.countP_cons]
    by_cases hp : p a
    · rw [if_pos hp, if_pos (by simpa using hp)]
      push_cast
      ring
    · rw [if_neg hp, if_neg (by simpa using hp)]
      push_cast
      ring

theorem sumBy_le_sumBy {α : Type} {l : List α} {f g : α → ℚ}
    (h : ∀ x ∈ l, f x ≤ g x) : sumBy l f ≤ sumBy l g := by
  induction l with
  | nil => exact le_refl _
  | cons a t ih =>
    rw [sumBy_cons, sumBy_cons]
    exact add_le_add (h a (List.mem_cons_self _ _))
      (ih (fun x hx => h x (List.mem_cons_of_mem _ hx)))

theorem sumBy_nonneg {α : Type} {l : List α} {f : α → ℚ}
    (h : ∀ x ∈ l, 0 ≤ f x) : 0 ≤ sumBy l f := by
  induction l with
  | nil => exact le_refl _
  | cons a t ih =>
    rw [sumBy_cons]
    exact add_nonneg (h a (List.mem_cons_self _ _))
      (ih (fun x hx => h x (List.mem_cons_of_mem _ hx)))

theorem sumBy_filter_split {α : Type} (l : List α) (p q : α → Bool) (f : α → ℚ) :
    sumBy (l.filter p) f =
      sumBy (l.filter (fun a => p a && q a)) f +
        sumBy (l.filter (fun a => p a && !(q a))) f := by
  induction l with
  | nil => simp [sumBy_nil]
  | cons a t ih =>
    cases hp : p a with
    | false =>
      simp only [List.filter_cons, hp, Bool.false_and, Bool.false_eq_true, if_false]
      exact ih
    | true =>
      cases hq : q a with
      | true =>
        simp only [List.filter_cons, hp, hq, Bool.true_and, Bool.not_true,
          Bool.false_eq_true, if_false, eq_self_iff_true, if_true]
        rw [sumBy_cons, sumBy_cons, ih]
        ring
      | false =>
        simp only [List.filter_cons, hp, hq, Bool.true_and, Bool.not_false,
          Bool.false_eq_true, if_false, eq_self_iff_true, if_true]
        rw [sumBy_cons, sumBy_cons, ih]
        ring

/-! ### Uniqueness of edge pairs in a well-formed graph -/

/-- The ordered endpoint pairs of all edges. -/
def edgePairs (G : Graph) : List (Node × Node) :=
  (edgeList G).map (fun e => (e.1, e.2.1))

theorem edgePairs_cons (k : Node) (a : Adj) (rest : Graph) :
    edgePairs ((k, a) :: rest) = a.map (fun q => (k, q.1)) ++ edgePairs rest := by
  unfold edgePairs
  rw [edgeList_cons, List.map_append, List.map_map]
  rfl

theorem mem_fst_nodeKeys {G : Graph} {x y : Node} (h : (x, y) ∈ edgePairs G) :
    x ∈ nodeKeys G := by
  rw [edgePairs, List.mem_map] at h
  obtain ⟨⟨u, v, d⟩, hmem, heq⟩ := h
  obtain ⟨adj, hG, _⟩ := mem_edgeList_iff.mp hmem
  have hux : u = x := congrArg Prod.fst heq
  subst hux
  exact List.mem_map_of_mem Prod.fst hG

theorem edgePairs_nodup :
    ∀ (G : Graph), (nodeKeys G).Nodup →
      (∀ p ∈ G, (p.2.map Prod.fst).Nodup) → (edgePairs G).Nodup := by
  intro G
  induction G with
  | nil =>
    intro _ _
    simp [edgePairs, edgeList]
  | cons p rest ih =>
    obtain ⟨k, a⟩ := p
    intro h1 h2
    simp only [nodeKeys, List.map_cons, List.nodup_cons] at h1
    rw [edgePairs_cons, List.nodup_append]
    refine ⟨?_, ?_, ?_⟩
    · have ha := h2 (k, a) (List.mem_cons_self _ _)
      have hmm : a.map (fun q => (k, q.1)) =
          (a.map Prod.fst).map (fun v => (k, v)) := by
        rw [List.map_map]
        rfl
      rw [hmm]
      exact ha.map (fun x y hxy => congrArg Prod.snd hxy)
    · exact ih h1.2 (fun p hp => h2 p (List.mem_cons_of_mem _ hp))
    · intro x hx hy
      rw [List.mem_map] at hx
      obtain ⟨q, _, hq⟩ := hx
      obtain ⟨x1, x2⟩ := x
      have hk : x1 = k := (congrArg Prod.fst hq).symm
      subst hk
      exact h1.1 (mem_fst_nodeKeys hy)

theorem countP_eq_one_of_nodup_mem {α : Type} [DecidableEq α] {l : List α} {a : α}
    (hnd : l.Nodup) (hmem : a ∈ l) :
    l.countP (fun x => decide (x = a)) = 1 := by
  induction l with
  | nil => simp at hmem
  | cons b t ih =>
    rw [List.countP_cons]
    rw [List.nodup_cons] at hnd
    rcases List.mem_cons.mp hmem with h | h
    · subst h
      have h0 : t.countP (fun x => decide (x = a)) = 0 := by
        apply List.countP_eq_zero.mpr
        intro x hx
        simp only [decide_eq_true_eq]
        intro hxa
        exact hnd.1 (hxa ▸ hx)
      rw [h0]
      simp
    · rw [ih hnd.2 h]
      have hb : ¬(b = a) := fun hh => hnd.1 (hh ▸ h)
      simp [hb]

theorem countP_eq_ite_of_nodup {l : List Node} (hnd : l.Nodup) (n : Node) :
    l.countP (fun x => decide (x = n)) = if n ∈ l then 1 else 0 := by
  by_cases h : n ∈ l
  · rw [if_pos h]
    exact countP_eq_one_of_nodup_mem hnd h
  · rw [if_neg h]
    apply List.countP_eq_zero.mpr
    intro x hx
    simp only [decide_eq_true_eq]
    rintro rfl
    exact h hx

theorem countP_pair {G : Graph} (hwf : WF G) {u v : Node} {d : EdgeData}
    (hex : getEdge G u v = some d) :
    (edgeList G).countP (fun e => decide (e.1 = u ∧ e.2.1 = v)) = 1 := by
  have h1 : (edgeList G).countP (fun e => decide (e.1 = u ∧ e.2.1 = v)) =
      (edgePairs G).countP (fun x => decide (x = (u, v))) := by
    rw [edgePairs, List.countP_map]
    apply List.countP_congr
    intro e _
    show (decide (e.1 = u ∧ e.2.1 = v) = true) ↔
      (decide ((e.1, e.2.1) = (u, v)) = true)
    simp only [decide_eq_true_eq]
    rw [Prod.mk.injEq]
  rw [h1]
  refine countP_eq_one_of_nodup_mem (edgePairs_nodup G hwf.1 hwf.2.1) ?_
  rw [edgePairs, List.mem_map]
  exact ⟨(u, v, d), getEdge_mem_edgeList hex, rfl⟩

/-! ### Inflow and outflow of a node -/

/-- Total flow entering a node over all its incoming edges. -/
def inflow (G : Graph) (n : Node) : ℚ :=
  sumBy ((edgeList G).filter (fun e => decide (e.2.1 = n))) (fun e => e.2.2.flow)

/-- Total flow leaving a node over all its outgoing edges. -/
def outflow (G : Graph) (n : Node) : ℚ :=
  sumBy ((edgeList G).filter (fun e => decide (e.1 = n))) (fun e => e.2.2.flow)

theorem inflow_bumpFlow {G : Graph} (hwf : WF G) {u v : Node} {d : EdgeData}
    (hex : getEdge G u v = some d) (b : ℚ) (n : Node) :
    inflow (bumpFlow G u v b) n = inflow G n + (if v = n then b else 0) := by
  unfold inflow
  rw [edgeList_bumpFlow, List.filter_map]
  have hpf : ((fun e : Node × Node × EdgeData => decide (e.2.1 = n)) ∘
      (fun e : Node × Node × EdgeData =>
        if e.1 = u ∧ e.2.1 = v then (e.1, e.2.1, bumpEdge b e.2.2) else e)) =
      fun e : Node × Node × EdgeData => decide (e.2.1 = n) := by
    funext e
    by_cases h : e.1 = u ∧ e.2.1 = v <;> simp [h]
  rw [hpf, sumBy_map]
  have hflow : ∀ e ∈ (edgeList G).filter (fun e => decide (e.2.1 = n)),
      (fun e : Node × Node × EdgeData => e.2.2.flow)
          (if e.1 = u ∧ e.2.1 = v then (e.1, e.2.1, bumpEdge b e.2.2) else e) =
        e.2.2.flow + (if e.1 = u ∧ e.2.1 = v then b else 0) := by
    intro e _
    by_cases h : e.1 = u ∧ e.2.1 = v <;> simp [h, bumpEdge]
  rw [sumBy_congr hflow, sumBy_add, sumBy_ite_eq]
  by_cases hv : v = n
  · subst hv
    have hc : ((edgeList G).filter (fun e => decide (e.2.1 = v))).countP
        (fun e => decide (e.1 = u ∧ e.2.1 = v)) = 1 := by
      rw [List.countP_filter]
      rw [show (fun (e : Node × Node × EdgeData) =>
          decide (e.1 = u ∧ e.2.1 = v) && decide (e.2.1 = v)) =
          fun e => decide (e.1 = u ∧ e.2.1 = v) from ?_]
      · exact countP_pair hwf hex
      · funext e
        by_cases h : e.1 = u ∧ e.2.1 = v
        · simp [h, h.2]
        · simp [h]
    rw [hc, if_pos rfl]
    push_cast
    ring
  · have hc : ((edgeList G).filter (fun e => decide (e.2.1 = n))).countP
        (fun e => decide (e.1 = u ∧ e.2.1 = v)) = 0 := by
      apply List.countP_eq_zero.mpr
      intro e he
      rw [List.mem_filter] at he
      simp only [decide_eq_true_eq] at he ⊢
      intro hcontra
      exact hv (hcontra.2 ▸ he.2)
    rw [hc, if_neg hv]
    push_cast
    ring

theorem outflow_bumpFlow {G : Graph} (hwf : WF G) {u v : Node} {d : EdgeData}
    (hex : getEdge G u v = some d) (b : ℚ) (n : Node) :
    outflow (bumpFlow G u v b) n = outflow G n + (if u = n then b else 0) := by
  unfold outflow
  rw [edgeList_bumpFlow, List.filter_map]
  have hpf : ((fun e : Node × Node × EdgeData => decide (e.1 = n)) ∘
      (fun e : Node × Node × EdgeData =>
        if e.1 = u ∧ e.2.1 = v then (e.1, e.2.1, bumpEdge b e.2.2) else e)) =
      fun e : Node × Node × EdgeData => decide (e.1 = n) := by
    funext e
    by_cases h : e.1 = u ∧ e.2.1 = v <;> simp [h]
  rw [hpf, sumBy_map]
  have hflow : ∀ e ∈ (edgeList G).filter (fun e => decide (e.1 = n)),
      (fun e : Node × Node × EdgeData => e.2.2.flow)
          (if e.1 = u ∧ e.2.1 = v then (e.1, e.2.1, bumpEdge b e.2.2) else e) =
        e.2.2.flow + (if e.1 = u ∧ e.2.1 = v then b else 0) := by
    intro e _
    by_cases h : e.1 = u ∧ e.2.1 = v <;> simp [h, bumpEdge]
  rw [sumBy_congr hflow, sumBy_add, sumBy_ite_eq]
  by_cases hu : u = n
  · subst hu
    have hc : ((edgeList G).filter (fun e => decide (e.1 = u))).countP
        (fun e => decide (e.1 = u ∧ e.2.1 = v)) = 1 := by
      rw [List.countP_filter]
      rw [show (fun (e : Node × Node × EdgeData) =>
          decide (e.1 = u ∧ e.2.1 = v) && decide (e.1 = u)) =
          fun e => decide (e.1 = u ∧ e.2.1 = v) from ?_]
      · exact countP_pair hwf hex
      · funext e
        by_cases h : e.1 = u ∧ e.2.1 = v
        · simp [h, h.1]
        · simp [h]
    rw [hc, if_pos rfl]
    push_cast
    ring
  · have hc : ((edgeList G).filter (fun e => decide (e.1 = n))).countP
        (fun e => decide (e.1 = u ∧ e.2.1 = v)) = 0 := by
      apply List.countP_eq_zero.mpr
      intro e he
      rw [List.mem_filter] at he
      simp only [decide_eq_true_eq] at he ⊢
      intro hcontra
      exact hu (hcontra.1 ▸ he.2)
    rw [hc, if_neg hu]
    push_cast
    ring

theorem inflow_augmentPath {b : ℚ} :
    ∀ (path : List (Node × Node)) (G : Graph), WF G →
      (∀ e ∈ path, ∃ d, getEdge G e.1 e.2 = some d) →
      ∀ n, inflow (augmentPath G b path) n =
        inflow G n + b * ((path.countP (fun e => decide (e.2 = n))) : ℚ) := by
  intro path
  induction path with
  | nil =>
    intro G _ _ n
    show inflow G n = _
    simp
  | cons e rest ih =>
    intro G hwf hex n
    obtain ⟨d, hd⟩ := hex e (List.mem_cons_self _ _)
    have step : augmentPath G b (e :: rest) =
        augmentPath (bumpFlow G e.1 e.2 b) b rest := rfl
    have hex2 : ∀ e2 ∈ rest, ∃ d2, getEdge (bumpFlow G e.1 e.2 b) e2.1 e2.2 = some d2 := by
      intro e2 he2
      obtain ⟨d2, hd2⟩ := hex e2 (List.mem_cons_of_mem _ he2)
      rw [getEdge_bumpFlow]
      by_cases h : e2.1 = e.1 ∧ e2.2 = e.2
      · rw [if_pos h, hd2]
        exact ⟨bumpEdge b d2, rfl⟩
      · rw [if_neg h]
        exact ⟨d2, hd2⟩
    rw [step, ih (bumpFlow G e.1 e.2 b) (WF_bumpFlow hwf e.1 e.2 b) hex2 n,
      inflow_bumpFlow hwf hd b n, List.countP_cons]
    by_cases h : e.2 = n
    · rw [if_pos h, if_pos (by simpa using h)]
      push_cast
      ring
    · rw [if_neg h, if_neg (by simpa using h)]
      push_cast
      ring

theorem outflow_augmentPath {b : ℚ} :
    ∀ (path : List (Node × Node)) (G : Graph), WF G →
      (∀ e ∈ path, ∃ d, getEdge G e.1 e.2 = some d) →
      ∀ n, outflow (augmentPath G b path) n =
        outflow G n + b * ((path.countP (fun e => decide (e.1 = n))) : ℚ) := by
  intro path
  induction path with
  | nil =>
    intro G _ _ n
    show outflow G n = _
    simp
  | cons e rest ih =>
    intro G hwf hex n
    obtain ⟨d, hd⟩ := hex e (List.mem_cons_self _ _)
    have step : augmentPath G b (e :: rest) =
        augmentPath (bumpFlow G e.1 e.2 b) b rest := rfl
    have hex2 : ∀ e2 ∈ rest, ∃ d2, getEdge (bumpFlow G e.1 e.2 b) e2.1 e2.2 = some d2 := by
      intro e2 he2
      obtain ⟨d2, hd2⟩ := hex e2 (List.mem_cons_of_mem _ he2)
      rw [getEdge_bumpFlow]
      by_cases h : e2.1 = e.1 ∧ e2.2 = e.2
      · rw [if_pos h, hd2]
        exact ⟨bumpEdge b d2, rfl⟩
      · rw [if_neg h]
        exact ⟨d2, hd2⟩
    rw [step, ih (bumpFlow G e.1 e.2 b) (WF_bumpFlow hwf e.1 e.2 b) hex2 n,
      outflow_bumpFlow hwf hd b n, List.countP_cons]
    by_cases h : e.1 = n
    · rw [if_pos h, if_pos (by simpa using h)]
      push_cast
      ring
    · rw [if_neg h, if_neg (by simpa using h)]
      push_cast
      ring

/-! ### Head and tail multiplicities along a chain -/

theorem chainEdges_map_snd : ∀ vs : List Node,
    (chainEdges vs).map Prod.snd = vs.tail := by
  intro vs
  induction vs with
  | nil => rfl
  | cons a tail ih =>
    cases tail with
    | nil => rfl
    | cons b rest =>
      show (b :: (chainEdges (b :: rest)).map Prod.snd) = b :: rest
      rw [ih]
      rfl

theorem chainEdges_map_fst : ∀ vs : List Node,
    (chainEdges vs).map Prod.fst = vs.dropLast := by
  intro vs
  induction vs with
  | nil => rfl
  | cons a tail ih =>
    cases tail with
    | nil => rfl
    | cons b rest =>
      show (a :: (chainEdges (b :: rest)).map Prod.fst) = (a :: b :: rest).dropLast
      rw [ih]
      rfl

theorem countP_comp_snd (path : List (Node × Node)) (n : Node) :
    path.countP (fun e => decide (e.2 = n)) =
      (path.map Prod.snd).countP (fun x => decide (x = n)) := by
  rw [List.countP_map]
  rfl

theorem countP_comp_fst (path : List (Node × Node)) (n : Node) :
    path.countP (fun e => decide (e.1 = n)) =
      (path.map Prod.fst).countP (fun x => decide (x = n)) := by
  rw [List.countP_map]
  rfl

theorem chain_counts_interior {vs : List Node} (hnd : vs.Nodup) {s t n : Node}
    (hh : vs.head? = some s) (hl : vs.getLast? = some t)
    (hns : n ≠ s) (hnt : n ≠ t) :
    (chainEdges vs).countP (fun e => decide (e.2 = n)) =
      (chainEdges vs).countP (fun e => decide (e.1 = n)) := by
  rw [countP_comp_snd, countP_comp_fst, chainEdges_map_snd, chainEdges_map_fst]
  have hndt : vs.tail.Nodup := hnd.sublist (List.tail_sublist vs)
  have hndd : vs.dropLast.Nodup := hnd.sublist (List.dropLast_sublist vs)
  rw [countP_eq_ite_of_nodup hndt, countP_eq_ite_of_nodup hndd]
  have hvsne : vs ≠ [] := by
    intro hh2
    rw [hh2] at hh
    simp at hh
  have hiff : n ∈ vs.tail ↔ n ∈ vs.dropLast := by
    have h1 : n ∈ vs.tail ↔ n ∈ vs := by
      cases vs with
      | nil => simp at hh
      | cons a tl =>
        have ha : a = s := by
          simp only [List.head?_cons, Option.some.injEq] at hh
          exact hh
        subst ha
        show n ∈ tl ↔ n ∈ a :: tl
        rw [List.mem_cons]
        constructor
        · exact Or.inr
        · rintro (h | h)
          · exact absurd h hns
          · exact h
    have h2 : n ∈ vs.dropLast ↔ n ∈ vs := by
      have hsplit := List.dropLast_append_getLast hvsne
      have hlast : vs.getLast hvsne = t := by
        have := List.getLast?_eq_getLast vs hvsne
        rw [hl] at this
        exact (Option.some.injEq _ _ ▸ this).symm
      constructor
      · intro h
        rw [← hsplit]
        exact List.mem_append_left _ h
      · intro h
        rw [← hsplit, List.mem_append] at h
        rcases h with h | h
        · exact h
        · rw [List.mem_singleton, hlast] at h
          exact absurd h hnt
    rw [h1, h2]
  rw [if_congr hiff rfl rfl]

theorem chain_counts_source {vs : List Node} (hnd : vs.Nodup) {s t : Node}
    (hh : vs.head? = some s) (hl : vs.getLast? = some t) (hst : s ≠ t) :
    (chainEdges vs).countP (fun e => decide (e.2 = s)) = 0 ∧
      (chainEdges vs).countP (fun e => decide (e.1 = s)) = 1 := by
  cases vs with
  | nil => simp at hh
  | cons a tl =>
    have ha : a = s := by
      simp only [List.head?_cons, Option.some.injEq] at hh
      exact hh
    subst ha
    rw [List.nodup_cons] at hnd
    constructor
    · rw [countP_comp_snd, chainEdges_map_snd]
      apply List.countP_eq_zero.mpr
      intro x hx
      simp only [decide_eq_true_eq]
      rintro rfl
      exact hnd.1 hx
    · rw [countP_comp_fst, chainEdges_map_fst]
      cases tl with
      | nil =>
        simp only [List.getLast?_singleton, Option.some.injEq] at hl
        exact absurd hl hst
      | cons b rest =>
        have hdl : (a :: b :: rest).dropLast = a :: (b :: rest).dropLast := rfl
        rw [hdl]
        refine countP_eq_one_of_nodup_mem ?_ (List.mem_cons_self _ _)
        have : (a :: b :: rest).dropLast.Nodup :=
          (List.nodup_cons.mpr hnd).sublist (List.dropLast_sublist _)
        rw [hdl] at this
        exact this

/-! ### Capacity feasibility, saturation count, and the augmentation step -/

/-- Capacity feasibility `0 ≤ flow ≤ capacity` on every edge (spec §3). -/
def Feas (G : Graph) : Prop :=
  ∀ e ∈ edgeList G, 0 ≤ e.2.2.flow ∧ e.2.2.flow ≤ e.2.2.capacity

/-- Number of unsaturated edges (positive residual capacity). -/
def unsat (G : Graph) : Nat :=
  (edgeList G).countP (fun e => decide (0 < residual e.2.2))

/-- Sum of the capacities of the edges leaving a node. -/
def capOut (G : Graph) (n : Node) : ℚ :=
  sumBy ((edgeList G).filter (fun e => decide (e.1 = n))) (fun e => e.2.2.capacity)

theorem pair_count_eq_one_of_nodup_mem {l : List (Node × Node)} {a : Node × Node}
    (hnd : l.Nodup) (hmem : a ∈ l) : l.count a = 1 := by
  induction l with
  | nil => simp at hmem
  | cons b t ih =>
    rw [List.count_cons]
    rw [List.nodup_cons] at hnd
    rcases List.mem_cons.mp hmem with h | h
    · subst h
      rw [List.count_eq_zero.mpr hnd.1]
      simp
    · rw [ih hnd.2 h]
      have hab : ¬(a = b) := fun hh => hnd.1 (hh ▸ h)
      have hba : ¬(b = a) := fun hh => hab hh.symm
      simp [hab, hba]

/-- The facts `edmonds_karp_maxflow` obtains about a reconstructed
augmenting path from the BFS invariants. -/
theorem edmonds_step {G : Graph} {source sink : Node} {trav : Trav} (hwf : WF G)
    (h : bfs_augmenting_path G source sink = Except.ok (some trav)) :
    ∃ path vs, reconstructPath trav sink = some path ∧ path = chainEdges vs ∧
      vs.head? = some source ∧ vs.getLast? = some sink ∧ vs.Nodup ∧
      (∀ e ∈ path, ∃ d, getEdge G e.1 e.2 = some d ∧ 0 < residual d) ∧
      path ≠ [] ∧ sink ≠ source := by
  obtain ⟨hinv, hsink, hne⟩ := bfs_found hwf h
  obtain ⟨vs, path, hrec, hchain, hh, hl, hnd, hedges, hnenil⟩ :=
    reconstructPath_spec hinv hsink hne
  exact ⟨path, vs, hrec, hchain, hh, hl, hnd, hedges, hnenil, hne⟩

theorem Feas_augment {G : Graph} (hwf : WF G) {vs : List Node}
    {path : List (Node × Node)} (hchain : path = chainEdges vs)
    (hvnodup : vs.Nodup)
    (hedges : ∀ e ∈ path, ∃ d, getEdge G e.1 e.2 = some d ∧ 0 < residual d)
    (hpne : path ≠ []) (hfeas : Feas G) :
    Feas (augmentPath G (pathBottleneck G path) path) := by
  have hpnodup : path.Nodup := hchain ▸ chainEdges_nodup hvnodup
  have hpos : ∀ e ∈ path, 0 < residAt G e.1 e.2 := by
    intro e he
    obtain ⟨d, hd1, hd2⟩ := hedges e he
    rw [residAt_eq hd1]
    exact hd2
  have hbpos : 0 < pathBottleneck G path := pathBottleneck_pos hpne hpos
  intro e2 he2
  rw [edgeList_augmentPath, List.mem_map] at he2
  obtain ⟨e0, he0, heq⟩ := he2
  obtain ⟨u, v, d⟩ := e0
  subst heq
  simp only at *
  obtain ⟨hf0, hfc⟩ := hfeas (u, v, d) he0
  by_cases hmem : ((u, v) : Node × Node) ∈ path
  · have hcount : path.count (u, v) = 1 := pair_count_eq_one_of_nodup_mem hpnodup hmem
    rw [hcount]
    have hle : pathBottleneck G path ≤ residAt G u v := pathBottleneck_le hmem
    have hra : residAt G u v = d.capacity - d.flow := by
      rw [residAt_eq (getEdge_of_mem_edgeList hwf he0)]
      rfl
    constructor
    · push_cast
      linarith
    · push_cast
      rw [hra] at hle
      linarith
  · rw [List.count_eq_zero.mpr hmem]
    push_cast
    constructor
    · linarith
    · linarith

theorem countP_lt_countP {α : Type} {l : List α} {p q : α → Bool}
    (himp : ∀ x ∈ l, q x = true → p x = true) {a : α} (ha : a ∈ l)
    (hpa : p a = true) (hqa : q a = false) : l.countP q < l.countP p := by
  induction l with
  | nil => simp at ha
  | cons b t ih =>
    rw [List.countP_cons, List.countP_cons]
    have hmono : t.countP q ≤ t.countP p :=
      countP_le_countP_of_imp t q p (fun x hx => himp x (List.mem_cons_of_mem _ hx))
    rcases List.mem_cons.mp ha with h | h
    · subst h
      rw [hpa, hqa, if_pos rfl, if_neg Bool.false_ne_true]
      omega
    · have hlt := ih (fun x hx => himp x (List.mem_cons_of_mem _ hx)) h
      by_cases hqb : q b = true
      · rw [hqb, himp b (List.mem_cons_self _ _) hqb]
        omega
      · rw [eq_false_of_ne_true hqb, if_neg Bool.false_ne_true]
        by_cases hpb : p b = true
        · rw [hpb, if_pos rfl]
          omega
        · rw [eq_false_of_ne_true hpb, if_neg Bool.false_ne_true]
          omega

theorem unsat_augment_lt {G : Graph} {vs : List Node}
    {path : List (Node × Node)} (hchain : path = chainEdges vs)
    (hvnodup : vs.Nodup)
    (hedges : ∀ e ∈ path, ∃ d, getEdge G e.1 e.2 = some d ∧ 0 < residual d)
    (hpne : path ≠ []) :
    unsat (augmentPath G (pathBottleneck G path) path) < unsat G := by
  have hpnodup : path.Nodup := hchain ▸ chainEdges_nodup hvnodup
  have hpos : ∀ e ∈ path, 0 < residAt G e.1 e.2 := by
    intro e he
    obtain ⟨d, hd1, hd2⟩ := hedges e he
    rw [residAt_eq hd1]
    exact hd2
  have hbpos : 0 < pathBottleneck G path := pathBottleneck_pos hpne hpos
  unfold unsat
  rw [edgeList_augmentPath, List.countP_map]
  -- the argmin edge of the path becomes saturated
  obtain ⟨estar, hestar, hbeq⟩ := pathBottleneck_attained (G := G) hpne
  obtain ⟨dstar, hd1, hd2⟩ := hedges estar hestar
  have hentry : (estar.1, estar.2, dstar) ∈ edgeList G := getEdge_mem_edgeList hd1
  have hrastar : residAt G estar.1 estar.2 = residual dstar := residAt_eq hd1
  refine countP_lt_countP ?_ hentry ?_ ?_
  · intro e he hq
    simp only [Function.comp_apply, decide_eq_true_eq] at hq ⊢
    unfold residual at hq ⊢
    simp only at hq
    have hcnt : (0 : ℚ) ≤ pathBottleneck G path * (path.count (e.1, e.2.1) : ℚ) := by
      have : (0 : ℚ) ≤ (path.count (e.1, e.2.1) : ℚ) := by positivity
      positivity
    linarith
  · simp only [decide_eq_true_eq]
    rw [← hrastar, ← hbeq]
    exact hbpos
  · simp only [Function.comp_apply]
    have hcount : path.count (estar.1, estar.2) = 1 := by
      refine pair_count_eq_one_of_nodup_mem hpnodup ?_
      have : ((estar.1, estar.2) : Node × Node) = estar := rfl
      rw [this]
      exact hestar
    simp only [decide_eq_false_iff_not, not_lt]
    unfold residual
    simp only
    rw [hcount]
    push_cast
    have : residual dstar = pathBottleneck G path := by rw [hbeq, hrastar]
    unfold residual at this
    linarith

theorem capOut_augmentPath (G : Graph) (b : ℚ) (path : List (Node × Node))
    (n : Node) : capOut (augmentPath G b path) n = capOut G n := by
  unfold capOut
  rw [edgeList_augmentPath, List.filter_map]
  have hpf : ((fun e : Node × Node × EdgeData => decide (e.1 = n)) ∘
      (fun e : Node × Node × EdgeData =>
        (e.1, e.2.1, { e.2.2 with
          flow := e.2.2.flow + b * (path.count (e.1, e.2.1) : ℚ) }))) =
      fun e : Node × Node × EdgeData => decide (e.1 = n) := rfl
  rw [hpf, sumBy_map]

/-! ### The Edmonds–Karp loop invariants -/

theorem edmondsLoop_spec (source sink : Node) :
    ∀ (fuel : Nat) (G : Graph) (acc : ℚ), WF G →
      ∀ v G', edmondsLoop source sink fuel G acc = Except.ok (some (v, G')) →
        WF G' ∧
          nodeKeys G' = nodeKeys G ∧
          (∀ x y, (getEdge G' x y).map (fun d => (d.enzyme, d.capacity)) =
            (getEdge G x y).map (fun d => (d.enzyme, d.capacity))) ∧
          (Feas G → Feas G') ∧
          (∀ n, n ≠ source → n ≠ sink →
            inflow G' n - outflow G' n = inflow G n - outflow G n) ∧
          inflow G' source = inflow G source ∧
          v = acc + (outflow G' source - outflow G source) ∧
          (∀ n, capOut G' n = capOut G n) := by
  intro fuel
  induction fuel with
  | zero =>
    intro G acc hwf v G' h
    exact absurd h (by simp [edmondsLoop])
  | succ fuel ih =>
    intro G acc hwf v G' h
    cases hbfs : bfs_augmenting_path G source sink with
    | error e =>
      rw [show edmondsLoop source sink (fuel + 1) G acc = Except.error e from by
        simp [edmondsLoop, hbfs]] at h
      exact absurd h (by simp)
    | ok o =>
      cases o with
      | none =>
        have h2 : Except.ok (ε := Err) (some (acc, G)) = Except.ok (some (v, G')) := by
          rw [← h]
          simp [edmondsLoop, hbfs]
        simp only [Except.ok.injEq, Option.some.injEq, Prod.mk.injEq] at h2
        obtain ⟨hv, hG⟩ := h2
        subst hv
        subst hG
        exact ⟨hwf, rfl, fun x y => rfl, id, fun n _ _ => rfl, rfl, by ring,
          fun n => rfl⟩
      | some trav =>
        obtain ⟨path, vs, hrecon, hchain, hhead, hlast, hvnodup, hedges, hpne, hts⟩ :=
          edmonds_step hwf hbfs
        have hstep : edmondsLoop source sink (fuel + 1) G acc =
            edmondsLoop source sink fuel
              (augmentPath G (pathBottleneck G path) path)
              (acc + pathBottleneck G path) := by
          simp [edmondsLoop, hbfs, hrecon]
        rw [hstep] at h
        have hex : ∀ e ∈ path, ∃ d, getEdge G e.1 e.2 = some d :=
          fun e he => (hedges e he).elim (fun d hd => ⟨d, hd.1⟩)
        obtain ⟨i1, i2, i3, i4, i5, i6, i7, i9⟩ :=
          ih (augmentPath G (pathBottleneck G path) path)
            (acc + pathBottleneck G path) (WF_augmentPath hwf _ _) v G' h
        have hst : source ≠ sink := fun hh => hts hh.symm
        have hcsrc := chain_counts_source hvnodup hhead hlast hst
        refine ⟨i1, ?_, ?_, ?_, ?_, ?_, ?_, ?_⟩
        · rw [i2, nodeKeys_augmentPath]
        · intro x y
          rw [i3 x y, getEdge_augmentPath]
          cases getEdge G x y with
          | none => rfl
          | some d => rfl
        · intro hfeas
          exact i4 (Feas_augment hwf hchain hvnodup hedges hpne hfeas)
        · intro n hns hnt
          rw [i5 n hns hnt, inflow_augmentPath path G hwf hex n,
            outflow_augmentPath path G hwf hex n]
          have hcint : path.countP (fun e => decide (e.2 = n)) =
              path.countP (fun e => decide (e.1 = n)) := by
            rw [hchain]
            exact chain_counts_interior hvnodup hhead hlast hns hnt
          rw [hcint]
          ring
        · rw [i6, inflow_augmentPath path G hwf hex source]
          have h0 : path.countP (fun e => decide (e.2 = source)) = 0 := by
            rw [hchain]
            exact hcsrc.1
          rw [h0]
          push_cast
          ring
        · rw [i7, outflow_augmentPath path G hwf hex source]
          have h1 : path.countP (fun e => decide (e.1 = source)) = 1 := by
            rw [hchain]
            exact hcsrc.2
          rw [h1]
          push_cast
          ring
        · intro n
          rw [i9 n, capOut_augmentPath]

theorem edmondsLoop_ne_junk (source sink : Node) :
    ∀ (fuel : Nat) (G : Graph) (acc : ℚ), WF G → unsat G < fuel →
      edmondsLoop source sink fuel G acc ≠ Except.ok none := by
  intro fuel
  induction fuel with
  | zero =>
    intro G acc _ h
    omega
  | succ fuel ih =>
    intro G acc hwf hfuel
    cases hbfs : bfs_augmenting_path G source sink with
    | error e => simp [edmondsLoop, hbfs]
    | ok o =>
      cases o with
      | none => simp [edmondsLoop, hbfs]
      | some trav =>
        obtain ⟨path, vs, hrecon, hchain, hhead, hlast, hvnodup, hedges, hpne, hts⟩ :=
          edmonds_step hwf hbfs
        have hstep : edmondsLoop source sink (fuel + 1) G acc =
            edmondsLoop source sink fuel
              (augmentPath G (pathBottleneck G path) path)
              (acc + pathBottleneck G path) := by
          simp [edmondsLoop, hbfs, hrecon]
        rw [hstep]
        refine ih _ _ (WF_augmentPath hwf _ _) ?_
        have := unsat_augment_lt hchain hvnodup hedges hpne
        omega

theorem edmonds_no_junk {G : Graph} (s t : Node) (hwf : WF G) :
    edmondsLoop s t (edmondsFuel G) G 0 ≠ Except.ok none := by
  refine edmondsLoop_ne_junk s t _ G 0 hwf ?_
  unfold edmondsFuel unsat
  have := List.countP_le_length
    (p := fun e : Node × Node × EdgeData => decide (0 < residual e.2.2))
    (l := edgeList G)
  omega

/-- Everything the max-flow computation guarantees about its result, for a
well-formed input graph: well-formedness, node set, capacities and enzyme
labels are preserved; capacity feasibility is preserved; flow is conserved
at nodes other than source and sink; no flow is ever pushed into the
source; and the returned value is exactly the net outflow gained at the
source. -/
theorem edmonds_spec {G : Graph} {s t : Node} {v : ℚ} {G' : Graph} (hwf : WF G)
    (h : edmonds_karp_maxflow G s t = Except.ok (v, G')) :
    WF G' ∧
      nodeKeys G' = nodeKeys G ∧
      (∀ x y, (getEdge G' x y).map (fun d => (d.enzyme, d.capacity)) =
        (getEdge G x y).map (fun d => (d.enzyme, d.capacity))) ∧
      (Feas G → Feas G') ∧
      (∀ n, n ≠ s → n ≠ t →
        inflow G' n - outflow G' n = inflow G n - outflow G n) ∧
      inflow G' s = inflow G s ∧
      v = outflow G' s - outflow G s ∧
      (∀ n, capOut G' n = capOut G n) := by
  unfold edmonds_karp_maxflow at h
  cases hL : edmondsLoop s t (edmondsFuel G) G 0 with
  | error e =>
    rw [hL] at h
    exact absurd h (by simp)
  | ok o =>
    cases o with
    | none =>
      rw [hL] at h
      simp only [Except.ok.injEq, Prod.mk.injEq] at h
      obtain ⟨hv, hG⟩ := h
      subst hv
      subst hG
      exact ⟨hwf, rfl, fun x y => rfl, id, fun n _ _ => rfl, rfl, by ring,
        fun n => rfl⟩
    | some r =>
      rw [hL] at h
      obtain ⟨v0, G0⟩ := r
      simp only [Except.ok.injEq, Prod.mk.injEq] at h
      obtain ⟨hv, hG⟩ := h
      subst hv
      subst hG
      obtain ⟨i1, i2, i3, i4, i5, i6, i7, i9⟩ :=
        edmondsLoop_spec s t (edmondsFuel G) G 0 hwf v0 G0 hL
      exact ⟨i1, i2, i3, i4, i5, i6, by rw [i7]; ring, i9⟩

/-! ### The min-cut reachability BFS -/

theorem mcScan_spec :
    ∀ (adj : Adj) (visited queue : List Node) (v' q' : List Node),
      mcScan adj visited queue = (v', q') →
      (∀ n ∈ v', n ∈ visited ∨ ∃ d, (n, d) ∈ adj) ∧
        (∀ n ∈ visited, n ∈ v') ∧
        (∀ n ∈ q', n ∈ queue ∨ n ∈ v') ∧
        (∀ n ∈ queue, n ∈ q') ∧
        (∀ q ∈ adj, 0 < residual (Prod.snd q) → q.1 ∈ v') ∧
        (visited.Nodup → v'.Nodup) ∧
        (∀ n ∈ v', n ∈ visited ∨ n ∈ q') := by
  intro adj
  induction adj with
  | nil =>
    intro visited queue v' q' h
    simp only [mcScan, Prod.mk.injEq] at h
    obtain ⟨h1, h2⟩ := h
    subst h1; subst h2
    exact ⟨fun n hn => Or.inl hn, fun n hn => hn, fun n hn => Or.inl hn,
      fun n hn => hn, fun q hq => by simp at hq, fun h => h,
      fun n hn => Or.inl hn⟩
  | cons e rest ih =>
    obtain ⟨v, d⟩ := e
    intro visited queue v' q' h
    simp only [mcScan] at h
    by_cases hc : 0 < residual d ∧ v ∉ visited
    · rw [if_pos hc] at h
      obtain ⟨c1, c2, c3, c4, c5, c6, c7⟩ := ih _ _ _ _ h
      refine ⟨?_, ?_, ?_, ?_, ?_, ?_, ?_⟩
      · intro n hn
        rcases c1 n hn with h1 | ⟨d2, h2⟩
        · rcases List.mem_append.mp h1 with h2 | h2
          · exact Or.inl h2
          · rw [List.mem_singleton] at h2
            exact Or.inr ⟨d, h2 ▸ List.mem_cons_self _ _⟩
        · exact Or.inr ⟨d2, List.mem_cons_of_mem _ h2⟩
      · intro n hn
        exact c2 n (List.mem_append_left _ hn)
      · intro n hn
        rcases c3 n hn with h1 | h1
        · rcases List.mem_append.mp h1 with h2 | h2
          · exact Or.inl h2
          · exact Or.inr (c2 n (List.mem_append_right _ h2))
        · exact Or.inr h1
      · intro n hn
        exact c4 n (List.mem_append_left _ hn)
      · intro q hq
        rcases List.mem_cons.mp hq with h1 | h1
        · intro _
          have hq1 : q.1 = v := by rw [h1]
          rw [hq1]
          exact c2 v (List.mem_append_right _ (List.mem_singleton.mpr rfl))
        · exact c5 q h1
      · intro hnd
        refine c6 ?_
        rw [List.nodup_append]
        exact ⟨hnd, List.nodup_singleton v, fun a ha hb =>
          hc.2 ((List.mem_singleton.mp hb) ▸ ha)⟩
      · intro n hn
        rcases c7 n hn with h1 | h1
        · rcases List.mem_append.mp h1 with h2 | h2
          · exact Or.inl h2
          · exact Or.inr (c4 n (List.mem_append_right _ h2))
        · exact Or.inr h1
    · rw [if_neg hc] at h
      obtain ⟨c1, c2, c3, c4, c5, c6, c7⟩ := ih _ _ _ _ h
      refine ⟨?_, c2, c3, c4, ?_, c6, c7⟩
      · intro n hn
        rcases c1 n hn with h1 | ⟨d2, h2⟩
        · exact Or.inl h1
        · exact Or.inr ⟨d2, List.mem_cons_of_mem _ h2⟩
      · intro q hq
        rcases List.mem_cons.mp hq with h1 | h1
        · intro hres
          have hq1 : q.1 = v := by rw [h1]
          have hq2 : residual (Prod.snd q) = residual d := by rw [h1]
          rw [hq2] at hres
          have hv : v ∈ visited := by
            by_contra hvv
            exact hc ⟨hres, hvv⟩
          rw [hq1]
          exact c2 v hv
        · exact c5 q h1

theorem mcScan_measure (U : List Node) :
    ∀ (adj : Adj) (visited queue : List Node),
      (∀ e ∈ adj, e.1 ∈ U) →
      ∀ v' q', mcScan adj visited queue = (v', q') →
        q'.length + unseenCount U v' ≤ queue.length + unseenCount U visited := by
  intro adj
  induction adj with
  | nil =>
    intro visited queue _ v' q' h
    simp only [mcScan, Prod.mk.injEq] at h
    obtain ⟨h1, h2⟩ := h
    subst h1; subst h2
    exact le_refl _
  | cons e rest ih =>
    obtain ⟨v, d⟩ := e
    intro visited queue hU v' q' h
    simp only [mcScan] at h
    by_cases hc : 0 < residual d ∧ v ∉ visited
    · rw [if_pos hc] at h
      have hrec := ih (visited ++ [v]) (queue ++ [v])
        (fun e2 he2 => hU e2 (List.mem_cons_of_mem _ he2)) v' q' h
      have hvU : v ∈ U := hU (v, d) (List.mem_cons_self _ _)
      have hlt := unseenCount_append_lt visited hvU hc.2
      have hql : (queue ++ [v]).length = queue.length + 1 := by simp
      omega
    · rw [if_neg hc] at h
      exact ih visited queue (fun e2 he2 => hU e2 (List.mem_cons_of_mem _ he2))
        v' q' h

theorem mcLoop_isSome (G : Graph) :
    ∀ (fuel : Nat) (visited queue : List Node),
      queue.length + unseenCount (nodeKeys G ++ allTargets G) visited < fuel →
      (mcLoop G fuel visited queue).isSome := by
  intro fuel
  induction fuel with
  | zero =>
    intro visited queue h
    omega
  | succ fuel ih =>
    intro visited queue h
    cases queue with
    | nil => simp [mcLoop]
    | cons cur rest =>
      cases hA : getAdj G cur with
      | none => simp [mcLoop, hA]
      | some adj =>
        cases hS : mcScan adj visited rest with
        | mk v' q' =>
          have hm := mcScan_measure (nodeKeys G ++ allTargets G) adj visited rest
            (fun e he => List.mem_append_right _ (getAdj_targets_mem hA e he))
            v' q' hS
          have hlen : (cur :: rest).length = rest.length + 1 := rfl
          have hrec := ih v' q' (by omega)
          simpa [mcLoop, hA, hS] using hrec

theorem mcLoop_spec (G : Graph) (hwf : WF G) :
    ∀ (fuel : Nat) (visited queue : List Node),
      (∀ n ∈ queue, n ∈ visited) → visited.Nodup →
      (∀ n ∈ visited, n ∈ nodeKeys G) →
      (∀ u ∈ visited, u ∈ queue ∨
        ∀ adj, getAdj G u = some adj →
          ∀ q ∈ adj, 0 < residual (Prod.snd q) → q.1 ∈ visited) →
      ∀ r, mcLoop G fuel visited queue = some r →
        ∃ S, r = Except.ok S ∧ S.Nodup ∧ (∀ n ∈ visited, n ∈ S) ∧
          (∀ n ∈ S, n ∈ nodeKeys G) ∧
          (∀ u ∈ S, ∀ adj, getAdj G u = some adj →
            ∀ q ∈ adj, 0 < residual (Prod.snd q) → q.1 ∈ S) := by
  intro fuel
  induction fuel with
  | zero =>
    intro visited queue _ _ _ _ r h
    simp [mcLoop] at h
  | succ fuel ih =>
    intro visited queue hq hnd hkeys hproc r h
    cases queue with
    | nil =>
      have hr : r = Except.ok visited := by
        simp only [mcLoop] at h
        simpa using h.symm
      refine ⟨visited, hr, hnd, fun n hn => hn, hkeys, ?_⟩
      intro u hu adj hadj q hq2 hres
      rcases hproc u hu with h1 | h1
      · simp at h1
      · exact h1 adj hadj q hq2 hres
    | cons cur rest =>
      cases hA : getAdj G cur with
      | none =>
        exact absurd (hkeys cur (hq cur (List.mem_cons_self _ _)))
          (getAdj_eq_none_iff.mp hA)
      | some adj =>
        cases hS : mcScan adj visited rest with
        | mk v' q' =>
          obtain ⟨c1, c2, c3, c4, c5, c6, c7⟩ := mcScan_spec adj visited rest v' q' hS
          have hq' : ∀ n ∈ q', n ∈ v' := by
            intro n hn
            rcases c3 n hn with h1 | h1
            · exact c2 n (hq n (List.mem_cons_of_mem _ h1))
            · exact h1
          have hnd' : v'.Nodup := c6 hnd
          have hkeys' : ∀ n ∈ v', n ∈ nodeKeys G := by
            intro n hn
            rcases c1 n hn with h1 | ⟨d2, h2⟩
            · exact hkeys n h1
            · exact targets_mem_keys hwf (getAdj_targets_mem hA (n, d2) h2)
          have hproc' : ∀ u ∈ v', u ∈ q' ∨
              ∀ adj2, getAdj G u = some adj2 →
                ∀ q ∈ adj2, 0 < residual (Prod.snd q) → q.1 ∈ v' := by
            intro u hu
            rcases c1 u hu with h1 | ⟨d2, h2⟩
            · rcases hproc u h1 with h2 | h2
              · rcases List.mem_cons.mp h2 with h3 | h3
                · subst h3
                  right
                  intro adj2 hadj2 q hq2 hres
                  rw [hA] at hadj2
                  injection hadj2 with hadj2
                  subst hadj2
                  exact c5 q hq2 hres
                · exact Or.inl (c4 u h3)
              · right
                intro adj2 hadj2 q hq2 hres
                exact c2 _ (h2 adj2 hadj2 q hq2 hres)
            · rcases c7 u hu with h3 | h3
              · rcases hproc u h3 with h4 | h4
                · rcases List.mem_cons.mp h4 with h5 | h5
                  · subst h5
                    right
                    intro adj2 hadj2 q hq2 hres
                    rw [hA] at hadj2
                    injection hadj2 with hadj2
                    subst hadj2
                    exact c5 q hq2 hres
                  · exact Or.inl (c4 u h5)
                · right
                  intro adj2 hadj2 q hq2 hres
                  exact c2 _ (h4 adj2 hadj2 q hq2 hres)
              · exact Or.inl h3
          have hrec : mcLoop G fuel v' q' = some r := by
            simpa [mcLoop, hA, hS] using h
          obtain ⟨S, hr, hS1, hS2, hS3, hS4⟩ := ih v' q' hq' hnd' hkeys' hproc' r hrec
          exact ⟨S, hr, hS1, fun n hn => hS2 n (c2 n hn), hS3, hS4⟩

/-- For a well-formed graph with the source registered, `min_cut`
succeeds, returns the canonical partition and cut, and its reachable set
is nodup, contains the source, lies inside the node set, and is closed
under residual-positive edges. -/
theorem min_cut_spec {G : Graph} {s : Node} (hwf : WF G)
    (hs : s ∈ nodeKeys G) :
    ∃ S, min_cut G s = Except.ok (S, minCutT G S,
        minCutEdges G S (minCutT G S),
        minCutEnzymes G (minCutEdges G S (minCutT G S))) ∧
      S.Nodup ∧ s ∈ S ∧ (∀ n ∈ S, n ∈ nodeKeys G) ∧
      (∀ u ∈ S, ∀ adj, getAdj G u = some adj →
        ∀ q ∈ adj, 0 < residual (Prod.snd q) → q.1 ∈ S) := by
  have hU : s ∈ nodeKeys G ++ allTargets G := List.mem_append_left _ hs
  have hlt : ([s] : List Node).length +
      unseenCount (nodeKeys G ++ allTargets G) [s] < bfsFuel G := by
    unfold bfsFuel
    have := unseenCount_singleton_lt hU
    simp only [List.length_singleton]
    omega
  have hsome := mcLoop_isSome G (bfsFuel G) [s] [s] hlt
  cases hres : mcLoop G (bfsFuel G) [s] [s] with
  | none =>
    rw [hres] at hsome
    simp at hsome
  | some r =>
    obtain ⟨S, hr, hS1, hS2, hS3, hS4⟩ := mcLoop_spec G hwf (bfsFuel G) [s] [s]
      (fun n hn => hn) (List.nodup_singleton s)
      (by intro n hn; rw [List.mem_singleton] at hn; rw [hn]; exact hs)
      (fun u hu => Or.inl hu) r hres
    subst hr
    refine ⟨S, ?_, hS1, hS2 s (List.mem_singleton.mpr rfl), hS3, hS4⟩
    unfold min_cut
    rw [hres]

/-! ### Cut edges: membership and saturation -/

/-- Capacity read through `G[u][v]` (0 on a missing edge, unreachable
where used). -/
def capAt (G : Graph) (u v : Node) : ℚ :=
  match getEdge G u v with
  | some d => d.capacity
  | none => 0

theorem capAt_eq {G : Graph} {u v : Node} {d : EdgeData}
    (h : getEdge G u v = some d) : capAt G u v = d.capacity := by
  simp [capAt, h]

theorem mem_minCutT {G : Graph} {S : List Node} {n : Node} :
    n ∈ minCutT G S ↔ n ∈ nodeKeys G ∧ n ∉ S := by
  unfold minCutT
  rw [List.mem_filter]
  simp

theorem mem_minCutEdges {G : Graph} {S T : List Node} {u v : Node} :
    (u, v) ∈ minCutEdges G S T ↔
      u ∈ S ∧ v ∈ T ∧ ∃ adj d, getAdj G u = some adj ∧ (v, d) ∈ adj := by
  unfold minCutEdges
  rw [List.mem_flatMap]
  constructor
  · rintro ⟨u2, hu2, hmem⟩
    cases hA : getAdj G u2 with
    | none =>
      rw [hA] at hmem
      simp at hmem
    | some adj =>
      rw [hA] at hmem
      rw [List.mem_map] at hmem
      obtain ⟨q, hq, heq⟩ := hmem
      rw [List.mem_filter] at hq
      have h1 : u2 = u := congrArg Prod.fst heq
      have h2 : q.1 = v := congrArg Prod.snd heq
      subst h1
      refine ⟨hu2, h2 ▸ (by simpa using hq.2), adj, q.2, hA, ?_⟩
      have hqe : q = (v, q.2) := by
        rw [← h2]
      rw [← hqe]
      exact hq.1
  · rintro ⟨hu, hv, adj, d, hA, hvd⟩
    refine ⟨u, hu, ?_⟩
    rw [hA, List.mem_map]
    exact ⟨(v, d), List.mem_filter.mpr ⟨hvd, by simpa using hv⟩, rfl⟩

/-- Every cut edge of `min_cut` on a feasible well-formed graph is
saturated: its flow equals its capacity. -/
theorem cut_edge_saturated {G : Graph} {s : Node} (hwf : WF G)
    (hs : s ∈ nodeKeys G) (hfeas : Feas G)
    {S T : List Node} {cut : List (Node × Node)} {enz : List String}
    (hmc : min_cut G s = Except.ok (S, T, cut, enz)) :
    ∀ u v, (u, v) ∈ cut → ∃ d, getEdge G u v = some d ∧ d.flow = d.capacity := by
  obtain ⟨S0, hok, hnd, hsS, hkeys, hclosed⟩ := min_cut_spec hwf hs
  rw [hok] at hmc
  simp only [Except.ok.injEq, Prod.mk.injEq] at hmc
  obtain ⟨hS, hT, hcut, _⟩ := hmc
  subst hS
  subst hT
  subst hcut
  intro u v hmem
  rw [mem_minCutEdges] at hmem
  obtain ⟨hu, hv, adj, d, hA, hvd⟩ := hmem
  have hvT := mem_minCutT.mp hv
  have hedge : getEdge G u v = some d := getEdge_of_getAdj hwf hA v d hvd
  refine ⟨d, hedge, ?_⟩
  have hres : ¬(0 < residual d) := fun hpos =>
    hvT.2 (hclosed u hu adj hA (v, d) hvd hpos)
  have hfc := hfeas (u, v, d) (getEdge_mem_edgeList hedge)
  unfold residual at hres
  have h1 : d.capacity ≤ d.flow := by linarith
  linarith [hfc.2]

/-! ### Summing flows over the cut partition -/

theorem sumBy_sub {α : Type} (l : List α) (f g : α → ℚ) :
    sumBy l (fun x => f x - g x) = sumBy l f - sumBy l g := by
  induction l with
  | nil => simp [sumBy_nil]
  | cons a t ih =>
    rw [sumBy_cons, sumBy_cons, sumBy_cons, ih]
    ring

theorem sumBy_zero {α : Type} (l : List α) : sumBy l (fun _ => (0 : ℚ)) = 0 := by
  induction l with
  | nil => rfl
  | cons a t ih =>
    rw [sumBy_cons, ih]
    ring

theorem sumBy_flatMap {α β : Type} (l : List α) (g : α → List β) (f : β → ℚ) :
    sumBy (l.flatMap g) f = sumBy l (fun x => sumBy (g x) f) := by
  induction l with
  | nil => rfl
  | cons a t ih =>
    rw [List.flatMap_cons, sumBy_append, sumBy_cons, ih]

theorem edgeList_fst_mem_keys {G : Graph} {e : Node × Node × EdgeData}
    (h : e ∈ edgeList G) : e.1 ∈ nodeKeys G := by
  obtain ⟨u, v, d⟩ := e
  obtain ⟨adj, hG, _⟩ := mem_edgeList_iff.mp h
  exact List.mem_map_of_mem Prod.fst hG

theorem edgeList_filter_tail :
    ∀ (G : Graph) {u : Node} {adj : Adj}, (nodeKeys G).Nodup →
      getAdj G u = some adj →
      (edgeList G).filter (fun e => decide (e.1 = u)) =
        adj.map (fun q => (u, q.1, q.2)) := by
  intro G
  induction G with
  | nil =>
    intro u adj _ h
    simp [getAdj] at h
  | cons p rest ih =>
    obtain ⟨k, a⟩ := p
    intro u adj hnd hA
    simp only [nodeKeys, List.map_cons, List.nodup_cons] at hnd
    rw [edgeList_cons, List.filter_append]
    by_cases hk : k = u
    · subst hk
      have hadj : a = adj := by
        simp [getAdj] at hA
        exact hA
      subst hadj
      have h1 : (a.map (fun q => ((k, a).1, q.1, q.2))).filter
          (fun e => decide (e.1 = k)) = a.map (fun q => (k, q.1, q.2)) := by
        rw [List.filter_eq_self]
        intro e he
        rw [List.mem_map] at he
        obtain ⟨q, _, hq⟩ := he
        have : e.1 = k := by rw [← hq]
        simp [this]
      have h2 : (edgeList rest).filter (fun e => decide (e.1 = k)) = [] := by
        rw [List.filter_eq_nil_iff]
        intro e he
        have := edgeList_fst_mem_keys he
        simp only [decide_eq_true_eq]
        intro hcontra
        exact hnd.1 (hcontra ▸ this)
      rw [h1, h2, List.append_nil]
    · have h1 : (a.map (fun q => ((k, a).1, q.1, q.2))).filter
          (fun e => decide (e.1 = u)) = [] := by
        rw [List.filter_eq_nil_iff]
        intro e he
        rw [List.mem_map] at he
        obtain ⟨q, _, hq⟩ := he
        have hek : e.1 = k := by rw [← hq]
        simp only [decide_eq_true_eq, hek]
        exact hk
      have hA2 : getAdj rest u = some adj := by
        simp only [getAdj, if_neg hk] at hA
        exact hA
      rw [h1, List.nil_append]
      exact ih hnd.2 hA2

theorem sumBy_partition {α : Type} (key : α → Node) (R : α → Bool) (f : α → ℚ) :
    ∀ (S : List Node), S.Nodup → ∀ (E : List α),
      sumBy S (fun u => sumBy (E.filter (fun e => decide (key e = u) && R e)) f) =
        sumBy (E.filter (fun e => decide (key e ∈ S) && R e)) f := by
  intro S
  induction S with
  | nil =>
    intro _ E
    have h0 : E.filter (fun e => decide (key e ∈ ([] : List Node)) && R e) = [] := by
      rw [List.filter_eq_nil_iff]
      intro e _
      simp
    rw [h0]
    rfl
  | cons u S2 ih =>
    intro hnd E
    rw [List.nodup_cons] at hnd
    rw [sumBy_cons, ih hnd.2,
      sumBy_filter_split E (fun e => decide (key e ∈ u :: S2) && R e)
        (fun e => decide (key e = u))]
    have e1 : E.filter
        (fun e => (decide (key e ∈ u :: S2) && R e) && decide (key e = u)) =
        E.filter (fun e => decide (key e = u) && R e) := by
      apply List.filter_congr
      intro e _
      by_cases hk : key e = u
      · cases hR : R e <;> simp [hk, hR]
      · cases hR : R e <;> simp [hk, hR]
    have e2 : E.filter
        (fun e => (decide (key e ∈ u :: S2) && R e) && !(decide (key e = u))) =
        E.filter (fun e => decide (key e ∈ S2) && R e) := by
      apply List.filter_congr
      intro e _
      by_cases hk : key e = u
      · have hns : u ∉ S2 := hnd.1
        cases hR : R e <;> simp [hk, hR, hns]
      · cases hR : R e <;> simp [hk, hR]
    rw [e1, e2]

theorem sum_outflow_S (G : Graph) {S : List Node} (hnd : S.Nodup) :
    sumBy S (fun u => outflow G u) =
      sumBy ((edgeList G).filter (fun e => decide (e.1 ∈ S)))
        (fun e => e.2.2.flow) := by
  have hclean : ∀ (p : Node × Node × EdgeData → Bool),
      (edgeList G).filter (fun e => p e && true) = (edgeList G).filter p := by
    intro p
    apply List.filter_congr
    intro e _
    simp
  have h := sumBy_partition (fun e : Node × Node × EdgeData => e.1)
    (fun _ => true) (fun e => e.2.2.flow) S hnd (edgeList G)
  rw [hclean] at h
  rw [← h]
  apply sumBy_congr
  intro u _
  unfold outflow
  rw [hclean]

theorem sum_inflow_S (G : Graph) {S : List Node} (hnd : S.Nodup) :
    sumBy S (fun u => inflow G u) =
      sumBy ((edgeList G).filter (fun e => decide (e.2.1 ∈ S)))
        (fun e => e.2.2.flow) := by
  have hclean : ∀ (p : Node × Node × EdgeData → Bool),
      (edgeList G).filter (fun e => p e && true) = (edgeList G).filter p := by
    intro p
    apply List.filter_congr
    intro e _
    simp
  have h := sumBy_partition (fun e : Node × Node × EdgeData => e.2.1)
    (fun _ => true) (fun e => e.2.2.flow) S hnd (edgeList G)
  rw [hclean] at h
  rw [← h]
  apply sumBy_congr
  intro u _
  unfold inflow
  rw [hclean]

theorem zero_flow_sums {G : Graph}
    (hzero : ∀ e ∈ edgeList G, e.2.2.flow = 0) (n : Node) :
    inflow G n = 0 ∧ outflow G n = 0 := by
  constructor
  · unfold inflow
    rw [show sumBy ((edgeList G).filter (fun e => decide (e.2.1 = n)))
        (fun e => e.2.2.flow) =
        sumBy ((edgeList G).filter (fun e => decide (e.2.1 = n)))
          (fun _ => (0 : ℚ)) from
      sumBy_congr (fun e he => hzero e (List.mem_of_mem_filter he))]
    exact sumBy_zero _
  · unfold outflow
    rw [show sumBy ((edgeList G).filter (fun e => decide (e.1 = n)))
        (fun e => e.2.2.flow) =
        sumBy ((edgeList G).filter (fun e => decide (e.1 = n)))
          (fun _ => (0 : ℚ)) from
      sumBy_congr (fun e he => hzero e (List.mem_of_mem_filter he))]
    exact sumBy_zero _

theorem getEdge_decomp {G : Graph} {u v : Node} {d : EdgeData}
    (h : getEdge G u v = some d) :
    ∃ adj, getAdj G u = some adj ∧ (v, d) ∈ adj := by
  unfold getEdge at h
  cases hA : getAdj G u with
  | none =>
    rw [hA] at h
    simp at h
  | some adj =>
    rw [hA] at h
    exact ⟨adj, rfl, lookupEdge_mem h⟩

theorem sum_cut_caps {G : Graph} (hwf : WF G) {S : List Node} (hnd : S.Nodup)
    (hSkeys : ∀ n ∈ S, n ∈ nodeKeys G) :
    sumBy (minCutEdges G S (minCutT G S)) (fun e => capAt G e.1 e.2) =
      sumBy ((edgeList G).filter
          (fun e => decide (e.1 ∈ S) && !(decide (e.2.1 ∈ S))))
        (fun e => e.2.2.capacity) := by
  unfold minCutEdges
  rw [sumBy_flatMap]
  have hpart := sumBy_partition (fun e : Node × Node × EdgeData => e.1)
    (fun e => !(decide (e.2.1 ∈ S))) (fun e => e.2.2.capacity) S hnd (edgeList G)
  rw [← hpart]
  apply sumBy_congr
  intro u hu
  have hukeys := hSkeys u hu
  cases hA : getAdj G u with
  | none => exact absurd hukeys (getAdj_eq_none_iff.mp hA)
  | some adj =>
    simp only [hA]
    have hff : (edgeList G).filter
        (fun e => decide (e.1 = u) && !(decide (e.2.1 ∈ S))) =
        ((edgeList G).filter (fun e => decide (e.1 = u))).filter
          (fun e => !(decide (e.2.1 ∈ S))) := by
      rw [List.filter_filter]
      apply List.filter_congr
      intro e _
      cases h1 : decide (e.1 = u) <;> cases h2 : decide (e.2.1 ∈ S) <;>
        simp [h1, h2]
    rw [hff, edgeList_filter_tail G hwf.1 hA, List.filter_map, sumBy_map,
      sumBy_map]
    have hadjkeys : ∀ q ∈ adj, q.1 ∈ nodeKeys G :=
      fun q hq => hwf.2.2 (u, adj) (getAdj_mem hA) q hq
    have hfe : adj.filter (fun q => decide (q.1 ∈ minCutT G S)) =
        adj.filter ((fun e : Node × Node × EdgeData => !(decide (e.2.1 ∈ S))) ∘
          (fun q : Node × EdgeData => (u, q.1, q.2))) := by
      apply List.filter_congr
      intro q hq
      show decide (q.1 ∈ minCutT G S) = !(decide (q.1 ∈ S))
      by_cases h : q.1 ∈ S
      · simp [h, mem_minCutT]
      · simp [h, mem_minCutT, hadjkeys q hq]
    rw [hfe]
    apply sumBy_congr
    intro q hq
    show capAt G u q.1 = q.2.capacity
    exact capAt_eq (getEdge_of_getAdj hwf hA q.1 q.2 (by
      have := List.mem_of_mem_filter hq
      obtain ⟨q1, q2⟩ := q
      exact this))

/-- Net outflow of the source equals cut capacity minus the flow coming
back across the cut, for any feasible conserved flow whose reachable set
is residually closed and separates source from sink. -/
theorem flow_across_cut {G : Graph} (hwf : WF G) (hfeas : Feas G)
    {s t : Node} {S : List Node}
    (hnd : S.Nodup) (hsS : s ∈ S) (htS : t ∉ S)
    (hclosed : ∀ u ∈ S, ∀ adj, getAdj G u = some adj →
      ∀ q ∈ adj, 0 < residual (Prod.snd q) → q.1 ∈ S)
    (hcons : ∀ n, n ≠ s → n ≠ t → inflow G n = outflow G n)
    (hins : inflow G s = 0) :
    outflow G s =
      sumBy ((edgeList G).filter
          (fun e => decide (e.1 ∈ S) && !(decide (e.2.1 ∈ S))))
        (fun e => e.2.2.capacity) -
      sumBy ((edgeList G).filter
          (fun e => decide (e.2.1 ∈ S) && !(decide (e.1 ∈ S))))
        (fun e => e.2.2.flow) := by
  have h1 : sumBy S (fun u => outflow G u - inflow G u) = outflow G s := by
    have hstep : sumBy S (fun u => outflow G u - inflow G u) =
        sumBy S (fun u => if u = s then outflow G s else 0) := by
      apply sumBy_congr
      intro u hu
      by_cases hus : u = s
      · rw [if_pos hus, hus, hins]
        ring
      · rw [if_neg hus]
        have hut : u ≠ t := fun hh => htS (hh ▸ hu)
        rw [hcons u hus hut]
        ring
    rw [hstep, sumBy_ite_eq, countP_eq_one_of_nodup_mem hnd hsS]
    push_cast
    ring
  have h2 : sumBy S (fun u => outflow G u - inflow G u) =
      sumBy S (fun u => outflow G u) - sumBy S (fun u => inflow G u) :=
    sumBy_sub S _ _
  rw [h2, sum_outflow_S G hnd, sum_inflow_S G hnd] at h1
  have h4a := sumBy_filter_split (edgeList G)
    (fun e => decide (e.1 ∈ S)) (fun e => decide (e.2.1 ∈ S))
    (fun e => e.2.2.flow)
  have h4b := sumBy_filter_split (edgeList G)
    (fun e => decide (e.2.1 ∈ S)) (fun e => decide (e.1 ∈ S))
    (fun e => e.2.2.flow)
  have h5 : (edgeList G).filter
      (fun e => decide (e.1 ∈ S) && decide (e.2.1 ∈ S)) =
      (edgeList G).filter
        (fun e => decide (e.2.1 ∈ S) && decide (e.1 ∈ S)) := by
    apply List.filter_congr
    intro e _
    cases ha : decide (e.1 ∈ S) <;> cases hb : decide (e.2.1 ∈ S) <;>
      simp [ha, hb]
  have h6 : sumBy ((edgeList G).filter
      (fun e => decide (e.1 ∈ S) && !(decide (e.2.1 ∈ S))))
      (fun e => e.2.2.flow) =
      sumBy ((edgeList G).filter
        (fun e => decide (e.1 ∈ S) && !(decide (e.2.1 ∈ S))))
        (fun e => e.2.2.capacity) := by
    apply sumBy_congr
    intro e he
    rw [List.mem_filter] at he
    obtain ⟨hmem, hcond⟩ := he
    have hcond2 : e.1 ∈ S ∧ e.2.1 ∉ S := by
      rcases Bool.and_eq_true .. |>.mp hcond with ⟨hc1, hc2⟩
      constructor
      · simpa using hc1
      · simpa using hc2
    obtain ⟨u, v, d⟩ := e
    have hedge : getEdge G u v = some d := getEdge_of_mem_edgeList hwf hmem
    obtain ⟨adj, hA, hvd⟩ := getEdge_decomp hedge
    have hres : ¬(0 < residual d) := fun hpos =>
      hcond2.2 (hclosed u hcond2.1 adj hA (v, d) hvd hpos)
    have hfc := hfeas (u, v, d) hmem
    unfold residual at hres
    show d.flow = d.capacity
    have := hfc.2
    linarith
  rw [h4a, h4b, h5, h6] at h1
  linarith [h1]

/-! ### Entry-level consequences for `edmonds_karp_maxflow` -/

theorem edmonds_of_bfs_none {G : Graph} {s t : Node}
    (h : bfs_augmenting_path G s t = Except.ok none) :
    edmonds_karp_maxflow G s t = Except.ok (0, G) := by
  unfold edmonds_karp_maxflow edmondsFuel
  simp [edmondsLoop, h]

theorem edmonds_err {G : Graph} {s t : Node} (hs : s ∉ nodeKeys G) :
    edmonds_karp_maxflow G s t = Except.error Err.UnknownNode := by
  have hb : bfs_augmenting_path G s t = Except.error Err.UnknownNode :=
    bfs_err hs
  unfold edmonds_karp_maxflow edmondsFuel
  simp [edmondsLoop, hb]

theorem Feas_of_zero {G : Graph}
    (hzero : ∀ e ∈ edgeList G, e.2.2.flow = 0 ∧ 0 ≤ e.2.2.capacity) :
    Feas G := by
  intro e he
  obtain ⟨h1, h2⟩ := hzero e he
  rw [h1]
  exact ⟨le_refl 0, h2⟩

theorem network_graph_single (u v : Node) (enz : String) (c : ℚ) :
    getEdge (network_graph [⟨u, v, enz, c⟩]) u v = some ⟨enz, c, 0⟩ := by
  show getEdge (add_edge [] u v ⟨enz, c, 0⟩) u v = some ⟨enz, c, 0⟩
  unfold add_edge ensureNode
  by_cases hvu : v = u
  · subst hvu
    simp [nodeKeys, getEdge, getAdj, lookupEdge, setEdgeData]
  · have h1 : v ∉ nodeKeys (([] : Graph) ++ [(u, [])]) ∨ True := Or.inr trivial
    simp only [nodeKeys, List.map_nil, List.not_mem_nil, if_false,
      List.nil_append, List.map_cons, List.map_nil]
    simp [setEdgeData, hvu, getEdge, getAdj, lookupEdge, nodeKeys]

/-! ### Concrete fixtures

`specRows` is the worked scenario of spec §8 (`A→B(10), A→C(5), B→D(4),
C→D(3), D→E(6)` with `A..E` as `0..4`).  `dagRows` is a seven-edge
acyclic network with unit capacities on which the greedy algorithm
(no reverse residual edges) stalls at flow 1 although the cut
capacity is 2.

The arithmetic of `ℚ` is restored to its definitional behaviour so that
the concrete runs below evaluate inside the kernel. -/

attribute [local semireducible] Rat.add Rat.sub Rat.mul

def specRows : List Row :=
  [⟨0, 1, "AB", 10⟩, ⟨0, 2, "AC", 5⟩, ⟨1, 3, "BD", 4⟩, ⟨2, 3, "CD", 3⟩,
    ⟨3, 4, "DE", 6⟩]

def specG : Graph := network_graph specRows

def specG2 : Graph :=
  match edmonds_karp_maxflow specG 0 4 with
  | Except.ok p => p.2
  | Except.error _ => []

def specS : List Node :=
  match min_cut specG2 0 with
  | Except.ok r => r.1
  | Except.error _ => []

def specT : List Node :=
  match min_cut specG2 0 with
  | Except.ok r => r.2.1
  | Except.error _ => []

def specCut : List (Node × Node) :=
  match min_cut specG2 0 with
  | Except.ok r => r.2.2.1
  | Except.error _ => []

def specEnz : List String :=
  match min_cut specG2 0 with
  | Except.ok r => r.2.2.2
  | Except.error _ => []

def dagRows : List Row :=
  [⟨0, 1, "e1", 1⟩, ⟨1, 2, "e2", 1⟩, ⟨2, 5, "e3", 1⟩, ⟨0, 3, "e4", 1⟩,
    ⟨3, 2, "e5", 1⟩, ⟨1, 4, "e6", 1⟩, ⟨4, 5, "e7", 1⟩]

def dagG : Graph := network_graph dagRows

def dagG2 : Graph :=
  match edmonds_karp_maxflow dagG 0 5 with
  | Except.ok p => p.2
  | Except.error _ => []

def dagS : List Node :=
  match min_cut dagG2 0 with
  | Except.ok r => r.1
  | Except.error _ => []

def dagT : List Node :=
  match min_cut dagG2 0 with
  | Except.ok r => r.2.1
  | Except.error _ => []

def dagCut : List (Node × Node) :=
  match min_cut dagG2 0 with
  | Except.ok r => r.2.2.1
  | Except.error _ => []

def dagEnz : List String :=
  match min_cut dagG2 0 with
  | Except.ok r => r.2.2.2
  | Except.error _ => []

/-- Concrete run of the engine on the spec §8 scenario: max flow 6. -/
theorem specG_run : edmonds_karp_maxflow specG 0 4 = Except.ok (6, specG2) :=
  rfl

/-- Concrete min-cut extraction on the spec §8 scenario. -/
theorem specG_mc :
    min_cut specG2 0 = Except.ok (specS, specT, specCut, specEnz) :=
  rfl

/-- BFS on the scenario graph finds no augmenting path towards the
absent node 9. -/
theorem specG_bfs_none : bfs_augmenting_path specG 0 9 = Except.ok none :=
  rfl

/-- Concrete run of the engine on the unit-capacity DAG: it stalls at
flow 1. -/
theorem dagG_run : edmonds_karp_maxflow dagG 0 5 = Except.ok (1, dagG2) :=
  rfl

/-- Concrete min-cut extraction on the unit-capacity DAG after the run. -/
theorem dagG_mc : min_cut dagG2 0 = Except.ok (dagS, dagT, dagCut, dagEnz) :=
  rfl

/-! ### The claims -/

/-- C1 counterexample: on the seven-edge unit-capacity DAG
`0→1, 1→2, 2→5, 0→3, 3→2, 1→4, 4→5`, the engine converges at flow
value 1 (its first augmenting path `0→1→2→5` blocks the two
edge-disjoint paths, and there are no reverse residual edges to undo
it), while the min-cut extracted from the post-flow graph has cut edges
`(0,1)` and `(2,5)` whose capacities sum to 2 — so the claimed
max-flow/min-cut duality fails on this input. -/
theorem duality_fails_on_seven_edge_dag :
    edmonds_karp_maxflow dagG 0 5 = Except.ok (1, dagG2) ∧
      min_cut dagG2 0 = Except.ok (dagS, dagT, dagCut, dagEnz) ∧
      ¬((1 : ℚ) = sumBy dagCut (fun e => capAt dagG2 e.1 e.2)) := by
  refine ⟨rfl, rfl, by decide⟩

/-- C1 (amended): for every well-formed graph with zero initial flows and
non-negative capacities, the flow value returned by the max-flow engine
equals the sum of the capacities of the cut edges extracted from the
post-flow graph **minus the total flow on the edges crossing back from
the unreachable side into the reachable side** (the sink lying outside
the reachable set, which convergence guarantees).  The unqualified
duality of the original claim is exactly the case where that backflow
term vanishes; the counterexample shows it need not. -/
theorem maxflow_eq_cut_capacity_minus_backflow
    {G : Graph} {s t : Node} {v : ℚ} {G2 : Graph}
    {S T : List Node} {cut : List (Node × Node)} {enz : List String}
    (hwf : WF G)
    (hzero : ∀ e ∈ edgeList G, e.2.2.flow = 0 ∧ 0 ≤ e.2.2.capacity)
    (hs : s ∈ nodeKeys G)
    (hrun : edmonds_karp_maxflow G s t = Except.ok (v, G2))
    (hmc : min_cut G2 s = Except.ok (S, T, cut, enz))
    (htS : t ∉ S) :
    v = sumBy cut (fun e => capAt G2 e.1 e.2) -
      sumBy ((edgeList G2).filter
          (fun e => decide (e.2.1 ∈ S) && !(decide (e.1 ∈ S))))
        (fun e => e.2.2.flow) := by
  obtain ⟨hwf2, hkeys, _, hfeasp, h5, h6, hval, _⟩ := edmonds_spec hwf hrun
  have hfeas2 := hfeasp (Feas_of_zero hzero)
  have hs2 : s ∈ nodeKeys G2 := hkeys ▸ hs
  obtain ⟨S0, hok, hnd, hsS, hSkeys, hclosed⟩ := min_cut_spec hwf2 hs2
  rw [hok] at hmc
  simp only [Except.ok.injEq, Prod.mk.injEq] at hmc
  obtain ⟨hS, hT, hcut, _⟩ := hmc
  subst hS
  subst hT
  subst hcut
  have hzf : ∀ e ∈ edgeList G, e.2.2.flow = 0 := fun e he => (hzero e he).1
  have hcons2 : ∀ n, n ≠ s → n ≠ t → inflow G2 n = outflow G2 n := by
    intro n hns hnt
    have hpres := h5 n hns hnt
    rw [(zero_flow_sums hzf n).1, (zero_flow_sums hzf n).2] at hpres
    linarith
  have hins2 : inflow G2 s = 0 := by
    rw [h6, (zero_flow_sums hzf s).1]
  have hvout : v = outflow G2 s := by
    rw [hval, (zero_flow_sums hzf s).2]
    ring
  have hfac := flow_across_cut hwf2 hfeas2 hnd hsS htS hclosed hcons2 hins2
  have hsc := sum_cut_caps hwf2 hnd hSkeys
  rw [hvout, hfac, hsc]

/-- C1 witness: on the DAG counterexample graph the amended identity is
`1 = 2 - 1` — cut capacity 2 minus backflow 1 on the edge `1→2` that
crosses from the unreachable side back into the reachable side. -/
theorem maxflow_eq_cut_capacity_minus_backflow_witness :
    WF dagG ∧ (0 : Node) ∈ nodeKeys dagG ∧ (5 : Node) ∉ dagS ∧
      (1 : ℚ) = sumBy dagCut (fun e => capAt dagG2 e.1 e.2) -
        sumBy ((edgeList dagG2).filter
            (fun e => decide (e.2.1 ∈ dagS) && !(decide (e.1 ∈ dagS))))
          (fun e => e.2.2.flow) :=
  ⟨by decide, by decide, by decide,
    maxflow_eq_cut_capacity_minus_backflow (by decide) (by decide) (by decide)
      dagG_run dagG_mc (by decide)⟩

/-- C2: for every well-formed input graph whose edges all start with flow
0 and non-negative capacity, the graph returned by the max-flow
computation satisfies `0 ≤ flow ≤ capacity` on every edge; moreover each
individual augmentation (by the bottleneck of a freshly found augmenting
path) preserves capacity feasibility. -/
theorem maxflow_flows_within_capacity
    {G : Graph} {s t : Node} {v : ℚ} {G2 : Graph} (hwf : WF G)
    (hzero : ∀ e ∈ edgeList G, e.2.2.flow = 0 ∧ 0 ≤ e.2.2.capacity)
    (hrun : edmonds_karp_maxflow G s t = Except.ok (v, G2)) :
    (∀ e ∈ edgeList G2, 0 ≤ e.2.2.flow ∧ e.2.2.flow ≤ e.2.2.capacity) ∧
      (∀ (H : Graph) (trav : Trav) (path : List (Node × Node)), WF H → Feas H →
        bfs_augmenting_path H s t = Except.ok (some trav) →
        reconstructPath trav t = some path →
        Feas (augmentPath H (pathBottleneck H path) path)) := by
  constructor
  · obtain ⟨_, _, _, h4, _⟩ := edmonds_spec hwf hrun
    exact h4 (Feas_of_zero hzero)
  · intro H trav path hwfH hfeasH hbfs hrecon
    obtain ⟨path2, vs, hrecon2, hchain, hh, hl, hnd, hedges, hpne, hts⟩ :=
      edmonds_step hwfH hbfs
    rw [hrecon] at hrecon2
    injection hrecon2 with hp
    subst hp
    exact Feas_augment hwfH hchain hnd hedges hpne hfeasH

/-- C2 witness: on the spec §8 scenario graph the hypotheses hold and the
resulting flows are within capacity. -/
theorem maxflow_flows_within_capacity_witness :
    WF specG ∧ (∀ e ∈ edgeList specG, e.2.2.flow = 0 ∧ 0 ≤ e.2.2.capacity) ∧
      (∀ e ∈ edgeList specG2, 0 ≤ e.2.2.flow ∧ e.2.2.flow ≤ e.2.2.capacity) :=
  ⟨by decide, by decide,
    (maxflow_flows_within_capacity (by decide) (by decide) specG_run).1⟩

/-- C3: after the max-flow engine has converged on a well-formed graph
with zero initial flows and non-negative capacities, every edge returned
in the min-cut extractor's `cut_edges` list is saturated: its flow
equals its capacity. -/
theorem cut_edges_saturated
    {G : Graph} {s t : Node} {v : ℚ} {G2 : Graph}
    {S T : List Node} {cut : List (Node × Node)} {enz : List String}
    (hwf : WF G)
    (hzero : ∀ e ∈ edgeList G, e.2.2.flow = 0 ∧ 0 ≤ e.2.2.capacity)
    (hrun : edmonds_karp_maxflow G s t = Except.ok (v, G2))
    (hs : s ∈ nodeKeys G)
    (hmc : min_cut G2 s = Except.ok (S, T, cut, enz)) :
    ∀ u w, (u, w) ∈ cut → ∃ d, getEdge G2 u w = some d ∧ d.flow = d.capacity := by
  obtain ⟨hwf2, hkeys, _, hfeasp, _⟩ := edmonds_spec hwf hrun
  exact cut_edge_saturated hwf2 (hkeys ▸ hs) (hfeasp (Feas_of_zero hzero)) hmc

/-- C3 witness: on the spec §8 scenario, the single cut edge `D→E` is
saturated (flow 6 of capacity 6). -/
theorem cut_edges_saturated_witness :
    WF specG ∧ (0 : Node) ∈ nodeKeys specG ∧
      ∀ u w, (u, w) ∈ specCut →
        ∃ d, getEdge specG2 u w = some d ∧ d.flow = d.capacity :=
  ⟨by decide, by decide,
    cut_edges_saturated (by decide) (by decide) specG_run (by decide)
      specG_mc⟩

/-- C4: the max-flow computation never mutates the caller's graph — the
engine works on a private copy (`copy.deepcopy`) and returns that copy,
so after the call the caller's graph is exactly the input value, and the
returned working copy differs from the input only in `flow` attributes
(node set, capacities and enzyme labels are preserved). -/
theorem maxflow_leaves_caller_graph_unchanged
    {G : Graph} {s t : Node} (hwf : WF G) :
    (compute_max_flow_call G s t).2 = G ∧
      (∀ v G2, edmonds_karp_maxflow G s t = Except.ok (v, G2) →
        nodeKeys G2 = nodeKeys G ∧
        ∀ x y, (getEdge G2 x y).map (fun d => (d.enzyme, d.capacity)) =
          (getEdge G x y).map (fun d => (d.enzyme, d.capacity))) := by
  refine ⟨rfl, ?_⟩
  intro v G2 hrun
  obtain ⟨_, h2, h3, _⟩ := edmonds_spec hwf hrun
  exact ⟨h2, h3⟩

/-- C4 witness: on the spec §8 scenario the caller's graph is unchanged
and the returned copy keeps the node set. -/
theorem maxflow_leaves_caller_graph_unchanged_witness :
    WF specG ∧ (compute_max_flow_call specG 0 4).2 = specG ∧
      nodeKeys specG2 = nodeKeys specG :=
  ⟨by decide, (maxflow_leaves_caller_graph_unchanged (by decide)).1,
    ((maxflow_leaves_caller_graph_unchanged (by decide)).2 6 specG2
      specG_run).1⟩

/-- C5: for a well-formed graph with zero initial flows and non-negative
(finite) capacities: every iteration's bottleneck is strictly positive;
the returned total flow is bounded by the sum of the capacities out of
the source; and the loop terminates — running it on fuel `|E| + 1`
(each augmentation permanently saturates at least one more edge, because
flows never decrease) never exhausts the fuel. -/
theorem maxflow_terminates_with_positive_bottlenecks
    {G : Graph} {s t : Node} {v : ℚ} {G2 : Graph} (hwf : WF G)
    (hzero : ∀ e ∈ edgeList G, e.2.2.flow = 0 ∧ 0 ≤ e.2.2.capacity)
    (hrun : edmonds_karp_maxflow G s t = Except.ok (v, G2)) :
    (∀ (H : Graph) (trav : Trav) (path : List (Node × Node)), WF H →
      bfs_augmenting_path H s t = Except.ok (some trav) →
      reconstructPath trav t = some path → 0 < pathBottleneck H path) ∧
      v ≤ capOut G s ∧
      edmondsLoop s t (edmondsFuel G) G 0 ≠ Except.ok none := by
  refine ⟨?_, ?_, edmonds_no_junk s t hwf⟩
  · intro H trav path hwfH hbfs hrecon
    obtain ⟨path2, vs, hrecon2, hchain, hh, hl, hnd, hedges, hpne, hts⟩ :=
      edmonds_step hwfH hbfs
    rw [hrecon] at hrecon2
    injection hrecon2 with hp
    subst hp
    apply pathBottleneck_pos hpne
    intro e he
    obtain ⟨d, hd1, hd2⟩ := hedges e he
    rw [residAt_eq hd1]
    exact hd2
  · obtain ⟨hwf2, _, _, hfeasp, _, _, hval, hcap⟩ := edmonds_spec hwf hrun
    have hfeas2 := hfeasp (Feas_of_zero hzero)
    have hout0 : outflow G s = 0 :=
      (zero_flow_sums (fun e he => (hzero e he).1) s).2
    have hv : v = outflow G2 s := by
      rw [hval, hout0]
      ring
    have hle : outflow G2 s ≤ capOut G2 s := by
      unfold outflow capOut
      apply sumBy_le_sumBy
      intro e he
      exact (hfeas2 e (List.mem_of_mem_filter he)).2
    rw [hv]
    calc outflow G2 s ≤ capOut G2 s := hle
      _ = capOut G s := hcap s

/-- C5 witness: on the spec §8 scenario the returned flow 6 is bounded
by the capacity 15 out of the source and the loop never exhausts its
fuel. -/
theorem maxflow_terminates_with_positive_bottlenecks_witness :
    WF specG ∧ (6 : ℚ) ≤ capOut specG 0 ∧
      edmondsLoop 0 4 (edmondsFuel specG) specG 0 ≠ Except.ok none :=
  ⟨by decide,
    (maxflow_terminates_with_positive_bottlenecks (by decide) (by decide)
      specG_run).2.1,
    (maxflow_terminates_with_positive_bottlenecks (by decide) (by decide)
      specG_run).2.2⟩

/-- C6 counterexample: with the source present but the sink absent
(node 9 is not in the scenario graph), the max-flow computation does not
fail with `UnknownNode` — it returns flow 0 and the unchanged graph.
This refutes the claim for the sink half of its disjunction. -/
theorem absent_sink_returns_zero_not_error :
    (9 : Node) ∉ nodeKeys specG ∧
      edmonds_karp_maxflow specG 0 9 = Except.ok (0, specG) := by
  constructor
  · decide
  · rfl

/-- C6 (amended): an absent **source** makes both the augmenting-path
finder and the max-flow computation fail with `UnknownNode` (the
`G[source]` lookup raises); but when the source is present and only the
**sink** is absent, the BFS simply never reaches it, and the computation
returns flow 0 without error. -/
theorem absent_source_errors_absent_sink_returns_zero
    {G : Graph} {s t : Node} (hwf : WF G) :
    (s ∉ nodeKeys G →
      bfs_augmenting_path G s t = Except.error Err.UnknownNode ∧
      edmonds_karp_maxflow G s t = Except.error Err.UnknownNode) ∧
      (s ∈ nodeKeys G → t ∉ nodeKeys G →
        bfs_augmenting_path G s t = Except.ok none ∧
        edmonds_karp_maxflow G s t = Except.ok (0, G)) := by
  constructor
  · intro hs
    exact ⟨bfs_err hs, edmonds_err hs⟩
  · intro hs ht
    have hb := bfs_none hwf hs (Or.inr ht)
    exact ⟨hb, edmonds_of_bfs_none hb⟩

/-- C6 witness: source 9 absent errors; source 0 present with sink 9
absent returns 0. -/
theorem absent_source_errors_absent_sink_returns_zero_witness :
    WF specG ∧ (9 : Node) ∉ nodeKeys specG ∧ (0 : Node) ∈ nodeKeys specG ∧
      edmonds_karp_maxflow specG 9 4 = Except.error Err.UnknownNode ∧
      edmonds_karp_maxflow specG 0 9 = Except.ok (0, specG) :=
  ⟨by decide, by decide, by decide,
    ((absent_source_errors_absent_sink_returns_zero (G := specG) (s := 9)
      (t := 4) (by decide)).1 (by decide)).2,
    ((absent_source_errors_absent_sink_returns_zero (G := specG) (s := 0)
      (t := 9) (by decide)).2 (by decide) (by decide)).2⟩

/-- C7 counterexample: handing graph construction an edge tuple with
capacity `-5` does not fail — `network_graph` performs no capacity
validation whatsoever (there is no `InvalidCapacity` error anywhere in
the code) and stores the edge with its negative capacity and flow 0. -/
theorem negative_capacity_accepted_at_construction :
    getEdge (network_graph [⟨0, 1, "hexokinase", -5⟩]) 0 1 =
      some ⟨"hexokinase", -5, 0⟩ := by
  decide

/-- C7 (amended): graph construction accepts every capacity value,
negative ones included, inserting the edge exactly as given (with flow
initialized to 0) instead of rejecting it. -/
theorem construction_stores_negative_capacity
    (u v : Node) (enz : String) (c : ℚ) (_hc : c < 0) :
    getEdge (network_graph [⟨u, v, enz, c⟩]) u v = some ⟨enz, c, 0⟩ :=
  network_graph_single u v enz c

/-- C7 witness: the single-row build with capacity `-3` stores it. -/
theorem construction_stores_negative_capacity_witness :
    (-3 : ℚ) < 0 ∧
      getEdge (network_graph [⟨7, 8, "pfk", -3⟩]) 7 8 = some ⟨"pfk", -3, 0⟩ :=
  ⟨by decide, construction_stores_negative_capacity 7 8 "pfk" (-3) (by decide)⟩

/-- C8: on a well-formed graph, calling the max-flow computation with
`source = sink = n` for a node `n` of the graph returns flow 0 with the
unchanged working copy and raises no error (the BFS never takes its
early exit because the sink is already visited); likewise, whenever no
augmenting path exists initially the computation returns flow 0. -/
theorem source_eq_sink_returns_zero_flow
    {G : Graph} {s t n : Node} (hwf : WF G) :
    (n ∈ nodeKeys G → edmonds_karp_maxflow G n n = Except.ok (0, G)) ∧
      (bfs_augmenting_path G s t = Except.ok none →
        edmonds_karp_maxflow G s t = Except.ok (0, G)) := by
  constructor
  · intro hn
    exact edmonds_of_bfs_none (bfs_none hwf hn (Or.inl rfl))
  · exact edmonds_of_bfs_none

/-- C8 witness: `source = sink = 2` on the scenario graph returns 0, and
a no-initial-path pair (sink 9 unreachable) returns 0. -/
theorem source_eq_sink_returns_zero_flow_witness :
    WF specG ∧ (2 : Node) ∈ nodeKeys specG ∧
      edmonds_karp_maxflow specG 2 2 = Except.ok (0, specG) ∧
      edmonds_karp_maxflow specG 0 9 = Except.ok (0, specG) :=
  ⟨by decide, by decide,
    (source_eq_sink_returns_zero_flow (s := 0) (t := 9) (by decide)).1
      (by decide),
    (source_eq_sink_returns_zero_flow (n := 2) (by decide)).2 specG_bfs_none⟩

/-- C9: the max-flow computation is a pure, deterministic function of
its input: the caller's graph is unchanged by a call (the engine works
on a private copy), so running the computation a second time on the
same original, unmutated graph yields the identical flow value and the
identical per-edge flow assignment.  Determinism of the traversal order
is built into the embedding exactly as insertion-ordered `dict`
iteration fixes it in the source. -/
theorem maxflow_deterministic_and_repeatable (G : Graph) (s t : Node) :
    (compute_max_flow_call G s t).2 = G ∧
      compute_max_flow_call ((compute_max_flow_call G s t).2) s t =
        compute_max_flow_call G s t :=
  ⟨rfl, rfl⟩

/-- C10: in the graph returned by the max-flow computation on a
well-formed graph with zero initial flows, flow is conserved at every
node other than the source and the sink: total inflow equals total
outflow, because each augmentation adds the same bottleneck to every
edge of a single source-to-sink path. -/
theorem interior_flow_conservation
    {G : Graph} {s t : Node} {v : ℚ} {G2 : Graph} (hwf : WF G)
    (hzero : ∀ e ∈ edgeList G, e.2.2.flow = 0)
    (hrun : edmonds_karp_maxflow G s t = Except.ok (v, G2)) :
    ∀ n, n ≠ s → n ≠ t → inflow G2 n = outflow G2 n := by
  obtain ⟨_, _, _, _, h5, _⟩ := edmonds_spec hwf hrun
  intro n hns hnt
  have hz := zero_flow_sums hzero n
  have hpres := h5 n hns hnt
  rw [hz.1, hz.2] at hpres
  linarith

/-- C10 witness: on the spec §8 scenario flow is conserved at the
interior node `D` (node 3): 4 + 2 in, 6 out. -/
theorem interior_flow_conservation_witness :
    WF specG ∧ (∀ e ∈ edgeList specG, e.2.2.flow = 0) ∧
      inflow specG2 3 = outflow specG2 3 :=
  ⟨by decide, by decide,
    interior_flow_conservation (by decide) (by decide) specG_run 3 (by decide)
      (by decide)⟩

end PathwayFlow
